import Mathlib

/-!
# Verification of the CityGML parse–filter–rebuild engine (`filter.py`)

Shallow embedding of the hand-written XML tree model, parser, serializer and
the two-round GML filtering algorithm of `src/filter.py`, together with proofs
of the behavioural claims about them.

Conventions:
* Python's `Node` objects and `str` children become the two constructors of
  `XNode`; `isinstance(child, str)` checks become matches on `XNode.text`.
* Python `set`s of ids become `Finset String` (all uses are order-independent:
  membership tests and unions).
* Python object identity (`id(n)`) used by the pruner becomes the position of
  a node in the tree (the list of child indices from the subtree root): the
  trees handled by the program are freshly parsed, so distinct positions are
  exactly distinct objects.
* The target-id collection handed to the filter is kept as a `List String`;
  the source converts it to a `set`, but every use (membership, union of the
  per-target path sets) is insensitive to duplication and order.
-/

namespace GmlFilter

/-- Tree node of the hand-written XML engine.  `elem` is the Python `Node`
class (tag name, raw attribute text, ordered children); `text` is a plain
`str` child (trimmed text between tags). -/
inductive XNode where
  | elem (name : String) (attr : String) (children : List XNode)
  | text (s : String)
deriving Repr

namespace XNode

mutual
/-- Boolean structural equality for tree nodes. -/
def beq : XNode → XNode → Bool
  | .text s, .text t => s == t
  | .elem n1 a1 c1, .elem n2 a2 c2 => n1 == n2 && a1 == a2 && beqList c1 c2
  | _, _ => false
/-- Boolean structural equality for child lists. -/
def beqList : List XNode → List XNode → Bool
  | [], [] => true
  | a :: as, b :: bs => beq a b && beqList as bs
  | _, _ => false
end

mutual
theorem beq_iff : ∀ a b, beq a b = true ↔ a = b
  | .text s, .text t => by simp [beq]
  | .text _, .elem _ _ _ => by simp [beq]
  | .elem _ _ _, .text _ => by simp [beq]
  | .elem n1 a1 c1, .elem n2 a2 c2 => by
    simp [beq, beqList_iff c1 c2, and_assoc]
theorem beqList_iff : ∀ as bs, beqList as bs = true ↔ as = bs
  | [], [] => by simp [beqList]
  | [], _ :: _ => by simp [beqList]
  | _ :: _, [] => by simp [beqList]
  | a :: as, b :: bs => by
    simp [beqList, beq_iff a b, beqList_iff as bs]
end

instance : DecidableEq XNode := fun a b =>
  decidable_of_iff (beq a b = true) (beq_iff a b)

/-- Tag name accessor (`node.name`); text nodes have no tag. -/
def nameOf : XNode → String
  | .elem nm _ _ => nm
  | .text _ => ""

/-- `node.children` (empty for text nodes). -/
def childrenOf : XNode → List XNode
  | .elem _ _ cs => cs
  | .text _ => []

/-- True for Python `Node` instances, false for `str` children. -/
def isElem : XNode → Bool
  | .elem _ _ _ => true
  | .text _ => false

/-- Strong induction principle for the nested tree type. -/
def strongInd {motive : XNode → Prop} (htext : ∀ s, motive (.text s))
    (helem : ∀ nm a cs, (∀ c ∈ cs, motive c) → motive (.elem nm a cs)) :
    ∀ n, motive n
  | .text s => htext s
  | .elem nm a cs => helem nm a cs (fun c hc =>
      have : sizeOf c < sizeOf (XNode.elem nm a cs) := by
        have h := List.sizeOf_lt_of_mem hc
        simp only [XNode.elem.sizeOf_spec]
        omega
      strongInd htext helem c)
termination_by n => sizeOf n

end XNode

/-- `Node.only_node_child`: asserts exactly one child which is a `Node`.
Assertion failures are modelled as `none`. -/
def only_node_child : XNode → Option XNode
  | .elem _ _ [XNode.elem nm a cs] => some (.elem nm a cs)
  | _ => none

/-- `Node.only_text_child`: asserts exactly one child which is a `str`. -/
def only_text_child : XNode → Option String
  | .elem _ _ [XNode.text s] => some s
  | _ => none

/-- Single pass behind `splitWs`; `cur` holds the current token reversed. -/
def splitWsGo (cur : List Char) : List Char → List (List Char)
  | [] => if cur.isEmpty then [] else [cur.reverse]
  | c :: cs =>
    if c.isWhitespace then
      if cur.isEmpty then splitWsGo [] cs
      else cur.reverse :: splitWsGo [] cs
    else splitWsGo (c :: cur) cs

/-- Python `str.split()` (no argument): split on whitespace runs, dropping
empty pieces. -/
def splitWs (l : List Char) : List (List Char) :=
  splitWsGo [] l

/-- `tok.split('=', 1)[1]`: everything after the first `'='`. -/
def afterEq (tok : List Char) : List Char :=
  (tok.dropWhile (fun c => c ≠ '=')).drop 1

/-- Python `s.strip('"')`: remove every leading and trailing `'"'`. -/
def stripQuotes (l : List Char) : List Char :=
  ((l.dropWhile (fun c => c = '"')).reverse.dropWhile (fun c => c = '"')).reverse

/-- The `gml:id="VALUE"` value carried by one attribute token. -/
def tokenGmlValue (tok : List Char) : String :=
  String.mk (stripQuotes (afterEq tok))

/-- Does an attribute token start with `gml:id=`? -/
def isGmlIdToken (tok : List Char) : Bool :=
  "gml:id=".data.isPrefixOf tok

/-- `get_gml_id`: the value of the first `gml:id=` attribute token, if any. -/
def get_gml_id : XNode → Option String
  | .text _ => none
  | .elem _ attr _ =>
    ((splitWs attr.data).find? isGmlIdToken).map tokenGmlValue

/-- All `gml:id` values carried directly by one attribute string. -/
def attr_gml_ids (attr : String) : Finset String :=
  (((splitWs attr.data).filter isGmlIdToken).map tokenGmlValue).toFinset

mutual
/-- `collect_gml_id_recurse`: every `gml:id` in the subtree (the Id Indexer). -/
def collect_gml_id_recurse : XNode → Finset String
  | .text _ => ∅
  | .elem _ attr cs => attr_gml_ids attr ∪ collect_list cs
/-- Union of the Indexer over a child list. -/
def collect_list : List XNode → Finset String
  | [] => ∅
  | c :: cs => collect_gml_id_recurse c ∪ collect_list cs
end

/-- `is_subfeature`: an element carrying a `gml:id` whose tag does not start
with `gml:`. -/
def is_subfeature : XNode → Bool
  | .text _ => false
  | n@(.elem nm _ _) => (get_gml_id n).isSome && !("gml:".data.isPrefixOf nm.data)

mutual
/-- `contains_subfeature`: node or any descendant is a sub-feature. -/
def contains_subfeature : XNode → Bool
  | .text _ => false
  | n@(.elem _ _ cs) => is_subfeature n || contains_list cs
/-- `contains_subfeature` over a child list. -/
def contains_list : List XNode → Bool
  | [] => false
  | c :: cs => contains_subfeature c || contains_list cs
end

mutual
/-- `find_path_to`: node list from the subtree root to the first descendant
(depth-first pre-order) carrying the target `gml:id`, or `none`. -/
def find_path_to : XNode → String → Option (List XNode)
  | .text _, _ => none
  | n@(.elem _ _ cs), tid =>
    if get_gml_id n = some tid then some [n]
    else (find_path_children cs tid).map (fun p => n :: p)
/-- First found path among a child list, in order. -/
def find_path_children : List XNode → String → Option (List XNode)
  | [], _ => none
  | c :: cs, tid =>
    match find_path_to c tid with
    | some p => some p
    | none => find_path_children cs tid
end

mutual
/-- Position (child-index path) of the first node carrying the target id, in
depth-first pre-order.  This is the identity-aware companion of
`find_path_to`: positions play the role of Python's `id()`. -/
def find_path_pos : XNode → String → Option (List Nat)
  | .text _, _ => none
  | n@(.elem _ _ cs), tid =>
    if get_gml_id n = some tid then some []
    else find_pos_children cs 0 tid
/-- First found position among a child list, indices starting at `i`. -/
def find_pos_children : List XNode → Nat → String → Option (List Nat)
  | [], _, _ => none
  | c :: cs, i, tid =>
    match find_path_pos c tid with
    | some q => some (i :: q)
    | none => find_pos_children cs (i + 1) tid
end

/-- The node sitting at a child-index path. -/
def nodeAt : XNode → List Nat → Option XNode
  | n, [] => some n
  | .text _, _ :: _ => none
  | .elem _ _ cs, i :: p =>
    match cs.get? i with
    | some c => nodeAt c p
    | none => none

/-- All prefixes of an index path, shortest first ( `[] = the root` ). -/
def prefixesOf : List Nat → List (List Nat)
  | [] => [[]]
  | i :: p => [] :: (prefixesOf p).map (fun q => i :: q)

mutual
/-- Every position of the tree in depth-first pre-order (document order). -/
def preorderPos : XNode → List (List Nat)
  | .text _ => [[]]
  | .elem _ _ cs => [] :: preorderPosList cs 0
/-- Positions of a child forest, child indices starting at `i`. -/
def preorderPosList : List XNode → Nat → List (List Nat)
  | [], _ => []
  | c :: cs, i => (preorderPos c).map (fun p => i :: p) ++ preorderPosList cs (i + 1)
end

/-! ## The Pruner (`prune_to_targets`)

Python's `path_node_ids` is a set of object identities (`id(n)`) of every node
on some found path.  In the embedding a node's identity is its position: the
nodes on the path found for one target are exactly the nodes at the prefixes
of the found index path. -/

/-- The keep-path set (`path_node_ids`): positions of every node lying on some
found path, over all target ids. -/
def keep_path_list (n : XNode) (target_ids : List String) : List (List Nat) :=
  (target_ids.map (fun tid =>
    match find_path_pos n tid with
    | some q => prefixesOf q
    | none => [])).flatten

mutual
/-- `prune_to_targets`'s inner `_prune`, run at position `pos` of the subtree
the Pruner was called on. -/
def pruneNode (keep : List (List Nat)) : List Nat → XNode → XNode
  | _, .text s => .text s
  | pos, .elem nm a cs => .elem nm a (pruneChildren keep pos 0 cs)
/-- The child-list rewrite of `_prune`; `i` is the original index of the first
element of `cs` within its parent's child list. -/
def pruneChildren (keep : List (List Nat)) (pos : List Nat) : Nat → List XNode → List XNode
  | _, [] => []
  | i, c :: cs =>
    match c with
    | .text s => .text s :: pruneChildren keep pos (i + 1) cs
    | .elem nm a gs =>
      if (pos ++ [i]) ∈ keep then
        pruneNode keep (pos ++ [i]) (.elem nm a gs) :: pruneChildren keep pos (i + 1) cs
      else if ¬ contains_subfeature (.elem nm a gs) then
        XNode.elem nm a gs :: pruneChildren keep pos (i + 1) cs
      else
        pruneChildren keep pos (i + 1) cs
end

/-- `prune_to_targets`: returns the retained flag and the (possibly pruned)
subtree; the tree is returned unchanged when no target is found. -/
def prune_to_targets (n : XNode) (target_ids : List String) : Bool × XNode :=
  let keep := keep_path_list n target_ids
  if keep = [] then (false, n)
  else (true, pruneNode keep [] n)

/-! ## Round 1 (`filter_gml_content`, lines 221–247)

Assertion failures (`AssertionError` aborting the whole call) are modelled as
`none`.  The kept/removed counters only feed `print` logging and are omitted. -/

/-- Round-1 pass over the root's child list: returns the new child list and
the referred-ids set. -/
def round1_children (gml_ids : List String) : List XNode → Option (List XNode × Finset String)
  | [] => some ([], ∅)
  | .text _ :: _ => none
  | .elem nm a cs :: ts =>
    if nm ≠ "core:cityObjectMember" then do
      let (l, r) ← round1_children gml_ids ts
      pure (XNode.elem nm a cs :: l, r)
    else do
      let c ← only_node_child (.elem nm a cs)
      if (get_gml_id c).elim false (fun i => gml_ids.contains i) then
        let (l, r) ← round1_children gml_ids ts
        pure (XNode.elem nm a cs :: l, collect_gml_id_recurse c ∪ r)
      else
        match prune_to_targets c gml_ids with
        | (true, c') => do
          let (l, r) ← round1_children gml_ids ts
          pure (XNode.elem nm a [c'] :: l, collect_gml_id_recurse c' ∪ r)
        | (false, _) => round1_children gml_ids ts

/-- Round 1 of `filter_gml_content` on the parsed tree: root-tag check, member
filtering, referred-ids collection. -/
def filter_round1 (root : XNode) (gml_ids : List String) : Option (XNode × Finset String) :=
  match root with
  | .text _ => none
  | .elem nm a cs =>
    if nm = "core:CityModel" then
      match round1_children gml_ids cs with
      | some (l, r) => some (.elem nm a l, r)
      | none => none
    else none

/-! ## Round 2 (`filter_appearance_members`) -/

/-- The reference of one `app:target` child: value of the first `uri=`
attribute token when present, else the bare text content. -/
def target_uri (c : XNode) : Option String :=
  match c with
  | .text _ => none
  | .elem _ attr _ =>
    match (splitWs attr.data).find? (fun tok => "uri=".data.isPrefixOf tok) with
    | some tok => some (String.mk (stripQuotes (afterEq tok)))
    | none => only_text_child c

/-- Python `uri.removeprefix('#')`: drop one leading `'#'` if present. -/
def stripHash (s : String) : String :=
  match s.data with
  | '#' :: rest => String.mk rest
  | _ => s

/-- Scan of the single child's child list inside one `app:surfaceDataMember`:
returns (rewritten children, member_referred flag, collected imageURI texts). -/
def scan_sdm_children (refs : Finset String) : List XNode → Option (List XNode × Bool × Finset String)
  | [] => some ([], false, ∅)
  | .text _ :: _ => none
  | .elem nm a gs :: cs =>
    if nm ≠ "app:target" then
      if nm = "app:imageURI" then do
        let s ← only_text_child (.elem nm a gs)
        let (l, b, imgs) ← scan_sdm_children refs cs
        pure (XNode.elem nm a gs :: l, b, insert s imgs)
      else do
        let (l, b, imgs) ← scan_sdm_children refs cs
        pure (XNode.elem nm a gs :: l, b, imgs)
    else do
      let u ← target_uri (.elem nm a gs)
      let (l, b, imgs) ← scan_sdm_children refs cs
      if stripHash u ∈ refs then
        pure (XNode.elem nm a gs :: l, true, imgs)
      else
        pure (l, b, imgs)

/-- The per-member rewrite loop over one `app:Appearance`'s child list:
returns rewritten members plus the imageURI texts of referred members. -/
def round2_members (refs : Finset String) : List XNode → Option (List XNode × Finset String)
  | [] => some ([], ∅)
  | .text _ :: _ => none
  | .elem nm a cs :: ms =>
    if nm = "app:surfaceDataMember" then do
      let m2 ← only_node_child (.elem nm a cs)
      let (l, b, imgs) ← scan_sdm_children refs m2.childrenOf
      let m2' := XNode.elem m2.nameOf
        (match m2 with | .elem _ a2 _ => a2 | .text _ => "") l
      let (ms', gimgs) ← round2_members refs ms
      pure (XNode.elem nm a [m2'] :: ms', (if b then imgs else ∅) ∪ gimgs)
    else do
      let (ms', gimgs) ← round2_members refs ms
      pure (XNode.elem nm a cs :: ms', gimgs)

/-- The final surfaceDataMember filter predicate (list-comprehension guard);
`none` models the `only_node_child` assertion inside it. -/
def keep_member (m : XNode) : Option Bool :=
  match m with
  | .text _ => some true
  | .elem nm _ _ =>
    if nm ≠ "app:surfaceDataMember" then some true
    else do
      let m2 ← only_node_child m
      pure (m2.childrenOf.any (fun c => c.isElem && c.nameOf == "app:target"))

/-- `appearance.children = [m for m in appearance.children if ...]`. -/
def filter_members : List XNode → Option (List XNode)
  | [] => some []
  | m :: ms => do
    let b ← keep_member m
    let ms' ← filter_members ms
    pure (if b then m :: ms' else ms')

/-- Round-2 handling of one toplevel child of the root. -/
def round2_toplevel (refs : Finset String) (t : XNode) : Option (XNode × Finset String) :=
  match t with
  | .text _ => none
  | .elem nm a _ =>
    if nm = "app:appearanceMember" then do
      let app ← only_node_child t
      match app with
      | .elem anm aa ams =>
        if anm = "app:Appearance" then do
          let (ams', imgs) ← round2_members refs ams
          let ams'' ← filter_members ams'
          pure (XNode.elem nm a [XNode.elem anm aa ams''], imgs)
        else none
      | .text _ => none
    else some (t, ∅)

/-- Round-2 pass over the root's child list. -/
def round2_children (refs : Finset String) : List XNode → Option (List XNode × Finset String)
  | [] => some ([], ∅)
  | t :: ts => do
    let (t', imgs) ← round2_toplevel refs t
    let (ts', gimgs) ← round2_children refs ts
    pure (t' :: ts', imgs ∪ gimgs)

/-- `filter_appearance_members`: rewrites appearance members against the
referred-ids set and returns the referred-images set. -/
def filter_appearance_members (root : XNode) (refs : Finset String) : Option (XNode × Finset String) :=
  match root with
  | .text _ => none
  | .elem nm a cs => do
    let (cs', imgs) ← round2_children refs cs
    pure (XNode.elem nm a cs', imgs)

/-- Both filtering rounds of `filter_gml_content` at tree level: final tree,
referred gml:ids, referred images.  `none` models any fatal assertion. -/
def filter_gml_tree (root : XNode) (gml_ids : List String) :
    Option (XNode × Finset String × Finset String) := do
  let (root1, refs) ← filter_round1 root gml_ids
  let (root2, imgs) ← filter_appearance_members root1 refs
  pure (root2, refs, imgs)

/-! ## The Serializer (`Node.build`, `Xml.build`) -/

/-- `Node.build_tag`: `<name attr>` with one separating space, `<name>` when
the attribute text is empty. -/
def build_tag (nm attr : String) : List Char :=
  if attr ≠ "" then '<' :: (nm.data ++ ' ' :: attr.data) ++ ['>']
  else '<' :: nm.data ++ ['>']

mutual
/-- `Node.build` (elements) and the raw emission of `str` children: compact
one-line form when no child is an element, one child per line otherwise. -/
def buildL : XNode → List Char
  | .text s => s.data
  | .elem nm attr cs =>
    if cs.all (fun c => !c.isElem) then
      build_tag nm attr ++ buildChildren cs ++ ('<' :: '/' :: nm.data ++ ['>', '\n'])
    else
      build_tag nm attr ++ '\n' :: buildChildren cs ++ ('<' :: '/' :: nm.data ++ ['>', '\n'])
/-- Concatenated serialization of a child list. -/
def buildChildren : List XNode → List Char
  | [] => []
  | c :: cs => buildL c ++ buildChildren cs
end

/-- The child-block separator `Node.build` emits right after the opening tag:
nothing in the compact all-text form, a newline otherwise. -/
def sepOf (cs : List XNode) : List Char :=
  if cs.all (fun c => !c.isElem) then [] else ['\n']

/-- The text `build_tag` places between the tag name and the closing `>`. -/
def attrPart (a : String) : List Char :=
  if a = "" then [] else ' ' :: a.data

/-! ## The Parser (`Xml.__init__`, `Xml._parse`)

The Python parser walks a cursor `self.i` forward through the text; the
embedding passes the remaining character list instead (every access is at or
after the cursor).  Python `str.find` returning `-1` feeds negative-slice
arithmetic on pathological inputs, where the original either crashes
(`AttributeError`/`RecursionError`) or loops forever; the embedding returns a
distinguishing error value in those places. -/

/-- Failure modes.  `mismatch` is the closing-tag assertion
(`AssertionError`); `badTag` — the tag-name regex fails (`AttributeError`);
`truncated` — a `<` or `</` with no later `>`;
`textHang` — trailing text with no later `<` (the original loops forever);
`fuel` — recursion budget exhausted (never at the budget `Xml_parse` gives);
`badHeader` — `<?xml` with no `?>` (`ValueError` on unpacking the split). -/
inductive PErr where
  | mismatch | badTag | truncated | textHang | fuel | badHeader
deriving Repr, DecidableEq

/-- Split at the first occurrence of `c`: `some (before, after)`; `none` when
`c` does not occur (Python `find` returning `-1`). -/
def splitAtChar (c : Char) : List Char → Option (List Char × List Char)
  | [] => none
  | d :: ds =>
    if d = c then some ([], ds)
    else
      match splitAtChar c ds with
      | some (pre, post) => some (d :: pre, post)
      | none => none

/-- Python `str.strip()`. -/
def trimL (l : List Char) : List Char :=
  ((l.dropWhile Char.isWhitespace).reverse.dropWhile Char.isWhitespace).reverse

/-- Python `str.rstrip()`. -/
def rstripL (l : List Char) : List Char :=
  (l.reverse.dropWhile Char.isWhitespace).reverse

/-- A character the tag-name regex `[^\s/>]+` accepts. -/
def isNameChar (c : Char) : Bool :=
  !c.isWhitespace && c ≠ '/' && c ≠ '>'

mutual
/-- `Xml._parse` with the cursor on a `'<'`: parse one element, returning it
and the input remaining just after its closing tag. -/
def parseElem (fuel : Nat) (cs : List Char) : Except PErr (XNode × List Char) :=
  match fuel with
  | 0 => .error .fuel
  | fuel + 1 =>
    match cs with
    | '<' :: cs1 =>
      match splitAtChar '>' cs1 with
      | none => .error .truncated
      | some (tag, afterTag) =>
        let tagName := tag.takeWhile isNameChar
        let rest := tag.dropWhile isNameChar
        if tagName = [] then .error .badTag
        else
          let r := rstripL rest
          if r.getLast? = some '/' then
            .ok (.elem (String.mk (trimL tagName)) (String.mk (trimL r.dropLast)) [], afterTag)
          else
            match parseLoop fuel tagName afterTag with
            | .error e => .error e
            | .ok (children, rest') =>
              .ok (.elem (String.mk (trimL tagName)) (String.mk (trimL rest)) children, rest')
    | _ => .error .badTag
/-- The child-collecting `while` loop of `Xml._parse`: returns the children
and the input remaining after the matching close tag (or after the end of
input, which leaves the element implicitly closed). -/
def parseLoop (fuel : Nat) (tagName : List Char) (cs : List Char) : Except PErr (List XNode × List Char) :=
  match fuel with
  | 0 => .error .fuel
  | fuel + 1 =>
    match cs with
    | [] => .ok ([], [])
    | '<' :: '/' :: cs2 =>
      match splitAtChar '>' cs2 with
      | none => .error .truncated
      | some (closeName, rest) =>
        if closeName = tagName then .ok ([], rest)
        else .error .mismatch
    | '<' :: cs1 =>
      match parseElem fuel ('<' :: cs1) with
      | .error e => .error e
      | .ok (child, rest) =>
        match parseLoop fuel tagName rest with
        | .error e => .error e
        | .ok (children, rest') => .ok (child :: children, rest')
    | c :: cs1 =>
      match splitAtChar '<' (c :: cs1) with
      | none => .error .textHang
      | some (txt, rest) =>
        match parseLoop fuel tagName ('<' :: rest) with
        | .error e => .error e
        | .ok (children, rest') =>
          if trimL txt = [] then .ok (children, rest')
          else .ok (.text (String.mk (trimL txt)) :: children, rest')
end

/-- The top-level `_parse` call: `None` when the body does not start with
`'<'` (including an empty body). -/
def parseTop (fuel : Nat) (body : List Char) : Except PErr (Option XNode × List Char) :=
  match body with
  | '<' :: _ =>
    match parseElem fuel body with
    | .error e => .error e
    | .ok (n, r) => .ok (some n, r)
  | _ => .ok (none, body)

/-- Split at the first occurrence of `?>` (Python `s.split('?>', 1)`). -/
def splitHeader : List Char → Option (List Char × List Char)
  | [] => none
  | '?' :: '>' :: rest => some ([], rest)
  | c :: rest =>
    match splitHeader rest with
    | some (pre, post) => some (c :: pre, post)
    | none => none

/-- `Xml.__init__` front matter: strip, BOM strip, header extraction.
Returns (header, body handed to `_parse`). -/
def xmlPreprocess (s : List Char) : Except PErr (List Char × List Char) :=
  let s1 := trimL s
  let s2 := if s1.head? = some '\uFEFF' then s1.drop 1 else s1
  if "<?xml".data.isPrefixOf s2 then
    match splitHeader s2 with
    | none => .error .badHeader
    | some (pre, post) => .ok (pre ++ ('?' :: '>' :: []), trimL post)
  else .ok ([], trimL s2)

/-- The whole parser (`Xml(s)`): header text and optional root element.  The
budget `body.length + 1` covers every input the original terminates on, since
each parsing step consumes at least one character. -/
def Xml_parse (s : List Char) : Except PErr (List Char × Option XNode) :=
  match xmlPreprocess s with
  | .error e => .error e
  | .ok (hdr, body) =>
    match parseTop (body.length + 1) body with
    | .error e => .error e
    | .ok (root, _) => .ok (hdr, root)

/-- `Xml.build` after a fresh parse: `Xml(d).build()`.  `none` when parsing
fails or leaves no root (Python would crash building `None`). -/
def parse_build (d : List Char) : Option (List Char) :=
  match Xml_parse d with
  | .ok (hdr, some t) => some (hdr ++ buildL t)
  | _ => none

/-! ## Canonical trees and well-formed documents (for the round-trip claim) -/

/-- Canonical tag name: non-empty, only characters the tag-name regex keeps
(no whitespace, `/`, `>`). -/
def nameOk (l : List Char) : Bool :=
  !l.isEmpty && l.all isNameChar

/-- Canonical attribute text: no `>`, no surrounding whitespace, not ending in
`/` (which would misparse as a self-closing tag). -/
def attrOk (l : List Char) : Bool :=
  l.all (fun c => c ≠ '>') && (trimL l == l) && l.getLast? ≠ some '/'

/-- Canonical text child: non-empty, trimmed, no `<`. -/
def textOk (s : String) : Bool :=
  !s.data.isEmpty && (trimL s.data == s.data) && s.data.all (fun c => c ≠ '<')

/-- No two adjacent text children (the parser merges adjacent text runs). -/
def noAdjText : List XNode → Bool
  | a :: b :: cs => !(!a.isElem && !b.isElem) && noAdjText (b :: cs)
  | _ => true

mutual
/-- Canonical element tree: exactly the shapes the parser produces from
well-formed input, and on which serialization inverts parsing. -/
def canonicalB : XNode → Bool
  | .text s => textOk s
  | .elem nm attr cs =>
    nameOk nm.data && attrOk attr.data && noAdjText cs && canonList cs
/-- `canonicalB` over a child list. -/
def canonList : List XNode → Bool
  | [] => true
  | c :: cs => canonicalB c && canonList cs
end

mutual
/-- Recursion budget needed to reparse one serialized element. -/
def parseCost : XNode → Nat
  | .text _ => 1
  | .elem _ _ cs => 2 + loopCost cs
/-- Recursion budget needed to parse back a serialized child list. -/
def loopCost : List XNode → Nat
  | [] => 2
  | c :: cs =>
    (match c with
     | .text _ => 1
     | .elem nm a gs => 2 + parseCost (.elem nm a gs)) + loopCost cs
end

/-- Well-formed input document: the parser succeeds with a root, the root is
canonical, and (when there is no `<?xml` header) the root's tag cannot be
mistaken for one on reparse.  Genuinely well-formed XML satisfies this; junk
such as `<a x//>` or `<a>text` does not. -/
def WellFormedDoc (d : List Char) : Prop :=
  ∃ hdr t, Xml_parse d = .ok (hdr, some t) ∧ canonicalB t = true ∧
    (hdr = [] → ¬ "?xml".data.isPrefixOf t.nameOf.data)

/-! ## Specification-side definitions

Declarative restatements, written from the claims' wording, to be proven
equal to what the transcribed code computes. -/

/-- `node.attr` accessor. -/
def XNode.attrOf : XNode → String
  | .elem _ a _ => a
  | .text _ => ""

/-- Does the node at position `p` carry `gml:id` equal to `tid`? -/
def matchesB (n : XNode) (tid : String) (p : List Nat) : Bool :=
  match nodeAt n p with
  | some m => get_gml_id m == some tid
  | none => false

mutual
/-- Every node of the tree (document order). -/
def allNodes : XNode → List XNode
  | .text s => [.text s]
  | .elem nm a cs => .elem nm a cs :: allNodesList cs
/-- Every node of a forest. -/
def allNodesList : List XNode → List XNode
  | [] => []
  | c :: cs => allNodes c ++ allNodesList cs
end

/-- The claim's keep condition for the child at original index `i`: text, or
on the keep-path set, or without any feature node in its subtree. -/
def keepChild (keep : List (List Nat)) (pos : List Nat) (i : Nat) (c : XNode) : Bool :=
  !c.isElem || decide ((pos ++ [i]) ∈ keep) || !contains_subfeature c

/-- What the pruning rewrite does to the child at original index `i`:
`none` = dropped, `some` = its replacement. -/
def prune_step (keep : List (List Nat)) (pos : List Nat) : Nat × XNode → Option XNode
  | (_, .text s) => some (.text s)
  | (i, .elem nm a gs) =>
    if (pos ++ [i]) ∈ keep then some (pruneNode keep (pos ++ [i]) (.elem nm a gs))
    else if ¬ contains_subfeature (.elem nm a gs) then some (.elem nm a gs)
    else none

mutual
/-- The claim's version of the pruning rewrite: filter every node's children
by `keepChild` and recurse into every kept child. -/
def pruneSpecNode (keep : List (List Nat)) : List Nat → XNode → XNode
  | _, .text s => .text s
  | pos, .elem nm a cs => .elem nm a (pruneSpecChildren keep pos 0 cs)
/-- `pruneSpecNode` over a child list whose first element sits at index `i`. -/
def pruneSpecChildren (keep : List (List Nat)) (pos : List Nat) : Nat → List XNode → List XNode
  | _, [] => []
  | i, c :: cs =>
    if keepChild keep pos i c then
      pruneSpecNode keep (pos ++ [i]) c :: pruneSpecChildren keep pos (i + 1) cs
    else
      pruneSpecChildren keep pos (i + 1) cs
end

/-- Number of children among the first `j` of `cs` that the rewrite keeps
(`i` = original index of the head of `cs`): the new index of child `j`. -/
def kcount (keep : List (List Nat)) (pos : List Nat) : Nat → List XNode → Nat → Nat
  | _, [], _ => 0
  | _, _ :: _, 0 => 0
  | i, c :: cs, j + 1 =>
    (if (prune_step keep pos (i, c)).isSome then 1 else 0) + kcount keep pos (i + 1) cs j

/-- Where a surviving node moves: the position, inside the pruned tree, of the
node that sat at position `q` inside the subtree `n` (itself at `pos`). -/
def reindexPos (keep : List (List Nat)) : XNode → List Nat → List Nat → List Nat
  | _, _, [] => []
  | .text _, _, _ :: _ => []
  | .elem _ _ cs, pos, j :: q =>
    kcount keep pos 0 cs j ::
      (match cs.get? j with
       | some c => reindexPos keep c (pos ++ [j]) q
       | none => [])

/-- Round-1 validity of the root's child list: every toplevel is an element
and every `core:cityObjectMember` has exactly one element child (otherwise
the source aborts on an assertion). -/
def round1Valid : List XNode → Bool
  | [] => true
  | .text _ :: _ => false
  | .elem nm a cs :: ts =>
    (!(nm == "core:cityObjectMember") || (only_node_child (.elem nm a cs)).isSome)
      && round1Valid ts

/-- The claim's round-1 decision for one toplevel child: non-members pass
unchanged; a member is kept as-is on a direct id match, kept pruned when the
Pruner retains, and dropped otherwise. -/
def round1_keep (gml_ids : List String) (t : XNode) : Option XNode :=
  match t with
  | .text s => some (.text s)
  | .elem nm a cs =>
    if nm = "core:cityObjectMember" then
      match only_node_child (.elem nm a cs) with
      | some c =>
        if (get_gml_id c).elim false (fun i => gml_ids.contains i) then some (.elem nm a cs)
        else
          match prune_to_targets c gml_ids with
          | (true, c') => some (.elem nm a [c'])
          | (false, _) => none
      | none => none
    else some (.elem nm a cs)

/-- The claim's referred-ids set: union, over all kept members, of the Id
Indexer over the member's (possibly pruned) city-object subtree. -/
def round1_refs (gml_ids : List String) (ts : List XNode) : Finset String :=
  (ts.filterMap (fun t =>
    if t.isElem && t.nameOf == "core:cityObjectMember" then
      (round1_keep gml_ids t).bind only_node_child
    else none)).foldr (fun c acc => collect_gml_id_recurse c ∪ acc) ∅

/-- The claim's kept-target test for one child of a surface-data node. -/
def target_kept (refs : Finset String) (c : XNode) : Bool :=
  c.isElem && c.nameOf == "app:target" &&
    (match target_uri c with
     | some u => decide (stripHash u ∈ refs)
     | none => false)

/-- The `app:imageURI` text values among a child list. -/
def images_of (cs : List XNode) : Finset String :=
  (cs.filterMap (fun c =>
    if c.isElem && c.nameOf == "app:imageURI" then only_text_child c else none)).toFinset

/-- The `app:imageURI` text values of one surface-data node. -/
def sdm_images (m2 : XNode) : Finset String :=
  images_of m2.childrenOf

/-- Images contributed by one `app:surfaceDataMember`: its imageURI texts when
at least one of its targets is kept, nothing otherwise. -/
def member_images (refs : Finset String) (m : XNode) : Finset String :=
  match only_node_child m with
  | some m2 => if m2.childrenOf.any (target_kept refs) then sdm_images m2 else ∅
  | none => ∅

/-- Images contributed by one child of an `app:Appearance`. -/
def member_imgs_entry (refs : Finset String) (m : XNode) : Finset String :=
  if m.isElem && m.nameOf == "app:surfaceDataMember" then member_images refs m else ∅

/-- Images contributed by one toplevel child of the root. -/
def toplevel_imgs (refs : Finset String) (t : XNode) : Finset String :=
  if t.isElem && t.nameOf == "app:appearanceMember" then
    match only_node_child t with
    | some app => (app.childrenOf.map (member_imgs_entry refs)).foldr (· ∪ ·) ∅
    | none => ∅
  else ∅

/-- The claim's referred-images set over the whole parsed root. -/
def spec_images (refs : Finset String) (root : XNode) : Finset String :=
  (root.childrenOf.map (toplevel_imgs refs)).foldr (· ∪ ·) ∅

/-- Round-2 validity of one child of a surface-data node (its asserts pass). -/
def sdmChildValid (c : XNode) : Bool :=
  c.isElem &&
    (if c.nameOf == "app:target" then (target_uri c).isSome
     else if c.nameOf == "app:imageURI" then (only_text_child c).isSome
     else true)

/-- Round-2 validity of one `app:surfaceDataMember` (all asserts pass). -/
def sdmValid (m : XNode) : Bool :=
  match only_node_child m with
  | some m2 => m2.childrenOf.all sdmChildValid
  | none => false

/-- Round-2 validity of one child of an `app:Appearance`. -/
def memberValid (m : XNode) : Bool :=
  m.isElem && (!(m.nameOf == "app:surfaceDataMember") || sdmValid m)

/-- Round-2 validity of one toplevel child of the root. -/
def toplevelValid (t : XNode) : Bool :=
  t.isElem &&
    (if t.nameOf == "app:appearanceMember" then
      match only_node_child t with
      | some app => app.nameOf == "app:Appearance" && app.childrenOf.all memberValid
      | none => false
    else true)

/-- Round-2 validity of the whole root. -/
def round2Valid (root : XNode) : Bool :=
  root.isElem && root.childrenOf.all toplevelValid

/-- What the target scan does to one child of a surface-data node:
`none` = dropped. -/
def sdm_child_step (refs : Finset String) (c : XNode) : Option XNode :=
  match c with
  | .text _ => none
  | .elem nm a gs =>
    if nm ≠ "app:target" then some (.elem nm a gs)
    else
      match target_uri (.elem nm a gs) with
      | some u => if stripHash u ∈ refs then some (.elem nm a gs) else none
      | none => none

/-- The round-2 rewrite of one child of an `app:Appearance`: a
surfaceDataMember's single child keeps only the non-target children and the
kept targets; other members are untouched. -/
def member_rewrite (refs : Finset String) (m : XNode) : XNode :=
  match m with
  | .elem nm a cs =>
    if nm = "app:surfaceDataMember" then
      match only_node_child (.elem nm a cs) with
      | some (XNode.elem n2 a2 gs) =>
        .elem nm a [.elem n2 a2 (gs.filterMap (sdm_child_step refs))]
      | _ => .elem nm a cs
    else .elem nm a cs
  | t => t

/-- The surviving members of one `app:Appearance` after round 2. -/
def appearance_members_out (refs : Finset String) (ams : List XNode) : List XNode :=
  (ams.map (member_rewrite refs)).filter (fun m => (keep_member m).getD false)

/-- The round-2 rewrite of one toplevel child of the root. -/
def toplevel_rewrite (refs : Finset String) (t : XNode) : XNode :=
  match t with
  | .elem nm a cs =>
    if nm = "app:appearanceMember" then
      match only_node_child (.elem nm a cs) with
      | some (XNode.elem anm aa ams) =>
        .elem nm a [.elem anm aa (appearance_members_out refs ams)]
      | _ => .elem nm a cs
    else .elem nm a cs
  | t => t

/-- Shift the leading child index of a position by one. -/
def shiftHead : List Nat → List Nat
  | [] => []
  | j :: p => (j + 1) :: p

/-! ## Helper lemmas: the Pruner -/

theorem contains_list_eq_false {cs : List XNode} :
    contains_list cs = false ↔ ∀ c ∈ cs, contains_subfeature c = false := by
  induction cs with
  | nil => simp [contains_list]
  | cons c cs ih => simp [contains_list, ih]

theorem prune_step_isSome (keep : List (List Nat)) (pos : List Nat) (i : Nat) (c : XNode) :
    (prune_step keep pos (i, c)).isSome = keepChild keep pos i c := by
  cases c with
  | text s => simp [prune_step, keepChild, XNode.isElem]
  | elem nm a gs =>
    simp only [prune_step, keepChild, XNode.isElem]
    split_ifs <;> simp_all

theorem pruneChildren_eq_filterMap (keep : List (List Nat)) (pos : List Nat) :
    ∀ (cs : List XNode) (i : Nat),
      pruneChildren keep pos i cs = (cs.enumFrom i).filterMap (prune_step keep pos) := by
  intro cs
  induction cs with
  | nil => intro i; simp [pruneChildren]
  | cons c cs ih =>
    intro i
    cases c with
    | text s =>
      simp [pruneChildren, List.enumFrom, prune_step, ih]
    | elem nm a gs =>
      simp only [pruneChildren, List.enumFrom, List.filterMap_cons, prune_step]
      split_ifs with h1 h2 <;> simp [ih]

theorem pruneNode_eq_self (keep : List (List Nat)) :
    ∀ (n : XNode), contains_subfeature n = false → ∀ pos, pruneNode keep pos n = n := by
  intro n
  induction n using XNode.strongInd with
  | htext s => intro _ pos; simp [pruneNode]
  | helem nm a cs ih =>
    intro h pos
    have hcs : ∀ c ∈ cs, contains_subfeature c = false := by
      have h2 : contains_list cs = false := by
        have := h
        simp only [contains_subfeature, Bool.or_eq_false_iff] at this
        exact this.2
      exact contains_list_eq_false.mp h2
    simp only [pruneNode, XNode.elem.injEq, true_and]
    suffices hs : ∀ (ds : List XNode), (∀ c ∈ ds, c ∈ cs) →
        ∀ i, pruneChildren keep pos i ds = ds by
      exact hs cs (fun c hc => hc) 0
    intro ds hsub
    induction ds with
    | nil => intro i; simp [pruneChildren]
    | cons d ds ihd =>
      intro i
      have hd : d ∈ cs := hsub d (by simp)
      have hds : ∀ c ∈ ds, c ∈ cs := fun c hc => hsub c (by simp [hc])
      cases d with
      | text s => simp [pruneChildren, ihd hds]
      | elem nm2 a2 gs =>
        have hnf : contains_subfeature (XNode.elem nm2 a2 gs) = false := hcs _ hd
        by_cases h1 : (pos ++ [i]) ∈ keep
        · simp only [pruneChildren, if_pos h1]
          rw [ih _ hd hnf, ihd hds]
        · simp [pruneChildren, if_neg h1, hnf, ihd hds]

theorem pruneSpecNode_eq (keep : List (List Nat)) :
    ∀ (n : XNode) (pos : List Nat), pruneSpecNode keep pos n = pruneNode keep pos n := by
  intro n
  induction n using XNode.strongInd with
  | htext s => intro pos; simp [pruneSpecNode, pruneNode]
  | helem nm a cs ih =>
    intro pos
    simp only [pruneSpecNode, pruneNode, XNode.elem.injEq, true_and]
    suffices hs : ∀ (ds : List XNode), (∀ c ∈ ds, c ∈ cs) →
        ∀ i, pruneSpecChildren keep pos i ds = pruneChildren keep pos i ds by
      exact hs cs (fun c hc => hc) 0
    intro ds hsub
    induction ds with
    | nil => intro i; simp [pruneSpecChildren, pruneChildren]
    | cons d ds ihd =>
      intro i
      have hd : d ∈ cs := hsub d (by simp)
      have hds : ∀ c ∈ ds, c ∈ cs := fun c hc => hsub c (by simp [hc])
      cases d with
      | text s =>
        simp [pruneSpecChildren, pruneChildren, keepChild, XNode.isElem,
          pruneSpecNode, ihd hds]
      | elem nm2 a2 gs =>
        by_cases h1 : (pos ++ [i]) ∈ keep
        · simp [pruneSpecChildren, pruneChildren, keepChild, XNode.isElem, h1,
            ihd hds, ih _ hd]
        · by_cases h2 : contains_subfeature (XNode.elem nm2 a2 gs)
          · simp [pruneSpecChildren, pruneChildren, keepChild, XNode.isElem,
              h1, h2, ihd hds]
          · have h2' : contains_subfeature (XNode.elem nm2 a2 gs) = false := by
              simpa using h2
            simp only [pruneSpecChildren, pruneChildren, keepChild, XNode.isElem,
              h1, h2', Bool.not_true, Bool.not_false, Bool.or_true, if_true,
              decide_eq_true_eq, Bool.false_or, if_neg h1]
            rw [ih _ hd, pruneNode_eq_self keep _ h2', ihd hds]
            simp [h2']

theorem prefixesOf_ne_nil (q : List Nat) : prefixesOf q ≠ [] := by
  cases q <;> simp [prefixesOf]

theorem mem_prefixesOf : ∀ {q p : List Nat}, p ∈ prefixesOf q ↔ p <+: q := by
  intro q
  induction q with
  | nil => intro p; simp [prefixesOf, List.prefix_nil]
  | cons j q ih =>
    intro p
    simp only [prefixesOf, List.mem_cons, List.mem_map]
    constructor
    · rintro (rfl | ⟨r, hr, rfl⟩)
      · exact List.nil_prefix
      · exact (List.prefix_cons_inj j).mpr (ih.mp hr)
    · intro hp
      cases p with
      | nil => exact Or.inl rfl
      | cons x xs =>
        rcases List.cons_prefix_cons.mp hp with ⟨rfl, hxs⟩
        exact Or.inr ⟨xs, ih.mpr hxs, rfl⟩

theorem mem_keep_path_list {p : List Nat} {n : XNode} {tids : List String} :
    p ∈ keep_path_list n tids ↔
      ∃ tid ∈ tids, ∃ q, find_path_pos n tid = some q ∧ p <+: q := by
  simp only [keep_path_list, List.mem_flatten, List.mem_map]
  constructor
  · rintro ⟨l, ⟨tid, htid, rfl⟩, hp⟩
    cases hq : find_path_pos n tid with
    | none => rw [hq] at hp; simp at hp
    | some q =>
      rw [hq] at hp
      exact ⟨tid, htid, q, hq, mem_prefixesOf.mp hp⟩
  · rintro ⟨tid, htid, q, hq, hpre⟩
    refine ⟨prefixesOf q, ⟨tid, htid, ?_⟩, mem_prefixesOf.mpr hpre⟩
    rw [hq]

theorem keep_path_list_eq_nil {n : XNode} {tids : List String} :
    keep_path_list n tids = [] ↔ ∀ tid ∈ tids, find_path_pos n tid = none := by
  simp only [keep_path_list, List.flatten_eq_nil_iff, List.mem_map]
  constructor
  · intro h tid htid
    cases hq : find_path_pos n tid with
    | none => rfl
    | some q =>
      have := h (prefixesOf q) ⟨tid, htid, by rw [hq]⟩
      exact absurd this (prefixesOf_ne_nil q)
  · rintro h l ⟨tid, htid, rfl⟩
    rw [h tid htid]

theorem find_path_isSome_eq : ∀ (n : XNode) (tid : String),
    (find_path_to n tid).isSome = (find_path_pos n tid).isSome := by
  intro n
  induction n using XNode.strongInd with
  | htext s => intro tid; simp [find_path_to, find_path_pos]
  | helem nm a cs ih =>
    intro tid
    simp only [find_path_to, find_path_pos]
    split_ifs with h
    · simp
    · suffices hs : ∀ (ds : List XNode), (∀ c ∈ ds, c ∈ cs) → ∀ i,
          (find_path_children ds tid).isSome = (find_pos_children ds i tid).isSome by
        simpa using hs cs (fun c hc => hc) 0
      intro ds hsub
      induction ds with
      | nil => intro i; simp [find_path_children, find_pos_children]
      | cons d ds ihd =>
        intro i
        have hd := ih d (hsub d (by simp)) tid
        have hds : ∀ c ∈ ds, c ∈ cs := fun c hc => hsub c (by simp [hc])
        simp only [find_path_children, find_pos_children]
        cases hto : find_path_to d tid with
        | some p =>
          cases hpo : find_path_pos d tid with
          | some q => simp
          | none => rw [hto, hpo] at hd; simp at hd
        | none =>
          cases hpo : find_path_pos d tid with
          | some q => rw [hto, hpo] at hd; simp at hd
          | none => simpa using ihd hds (i + 1)

/-! ## Helper lemmas: round 1 -/

theorem only_node_child_some {t c : XNode} (h : only_node_child t = some c) :
    ∃ nm a nm1 a1 cs1, t = XNode.elem nm a [XNode.elem nm1 a1 cs1] ∧
      c = XNode.elem nm1 a1 cs1 := by
  cases t with
  | text s => simp [only_node_child] at h
  | elem nm a cs =>
    rcases cs with _ | ⟨c0, _ | ⟨c1, rest⟩⟩
    · simp [only_node_child] at h
    · cases c0 with
      | elem nm1 a1 cs1 =>
        refine ⟨nm, a, nm1, a1, cs1, rfl, ?_⟩
        simpa [only_node_child] using h.symm
      | text s => simp [only_node_child] at h
    · cases c0 <;> simp [only_node_child] at h

theorem only_node_child_elem_some {nm a : String} {cs : List XNode}
    (h : (only_node_child (XNode.elem nm a cs)).isSome = true) :
    ∃ nm1 a1 cs1, cs = [XNode.elem nm1 a1 cs1] := by
  rcases cs with _ | ⟨c0, _ | ⟨c1, rest⟩⟩
  · simp [only_node_child] at h
  · cases c0 with
    | elem nm1 a1 cs1 => exact ⟨nm1, a1, cs1, rfl⟩
    | text s => simp [only_node_child] at h
  · cases c0 <;> simp [only_node_child] at h

theorem round1_children_cons_none (ids : List String) (t : XNode) (ts : List XNode)
    (h : round1_children ids ts = none) : round1_children ids (t :: ts) = none := by
  cases t with
  | text s => simp [round1_children]
  | elem nm a cs =>
    simp only [round1_children]
    split_ifs with h1
    · rw [h]; rfl
    · cases honc : only_node_child (XNode.elem nm a cs) with
      | none => simp [Option.bind]
      | some c =>
        simp only [Option.bind_eq_bind, Option.some_bind]
        split_ifs with h2
        · rw [h]; rfl
        · rcases hp : prune_to_targets c ids with ⟨b, c'⟩
          cases b <;> simp [h]

theorem round1_children_none (ids : List String) :
    ∀ ts : List XNode,
      (∃ t ∈ ts, t.nameOf = "core:cityObjectMember" ∧ only_node_child t = none) →
      round1_children ids ts = none := by
  intro ts
  induction ts with
  | nil => rintro ⟨t, ht, _⟩; simp at ht
  | cons t ts ih =>
    rintro ⟨u, hu, hnm, honc⟩
    rcases List.mem_cons.mp hu with rfl | hmem
    · cases u with
      | text s => simp [round1_children]
      | elem nm a cs =>
        have hnm' : nm = "core:cityObjectMember" := hnm
        subst hnm'
        simp [round1_children, honc, Option.bind]
    · exact round1_children_cons_none ids t ts (ih ⟨u, hmem, hnm, honc⟩)

theorem round1_children_eq (ids : List String) :
    ∀ ts : List XNode, round1Valid ts = true →
      round1_children ids ts = some (ts.filterMap (round1_keep ids), round1_refs ids ts) := by
  intro ts
  induction ts with
  | nil => intro _; simp [round1_children, round1_refs]
  | cons t ts ih =>
    intro hv
    cases t with
    | text s => simp [round1Valid] at hv
    | elem nm a cs =>
      simp only [round1Valid, Bool.and_eq_true] at hv
      obtain ⟨hv1, hv2⟩ := hv
      have ihr := ih hv2
      by_cases hnm : nm = "core:cityObjectMember"
      · subst hnm
        have honc : (only_node_child (XNode.elem "core:cityObjectMember" a cs)).isSome = true := by
          rcases Bool.or_eq_true_iff.mp hv1 with h | h
          · simp at h
          · exact h
        obtain ⟨nm1, a1, cs1, rfl⟩ := only_node_child_elem_some honc
        have hc : only_node_child
            (XNode.elem "core:cityObjectMember" a [XNode.elem nm1 a1 cs1])
            = some (XNode.elem nm1 a1 cs1) := rfl
        cases htop : (get_gml_id (XNode.elem nm1 a1 cs1)).elim false
            (fun i => decide (i ∈ ids)) with
        | true =>
          simp [round1_children, hc, htop, ihr, round1_keep, round1_refs,
            List.filterMap_cons, XNode.isElem, XNode.nameOf]
        | false =>
          by_cases hk : keep_path_list (XNode.elem nm1 a1 cs1) ids = []
          · have hp : prune_to_targets (XNode.elem nm1 a1 cs1) ids
                = (false, XNode.elem nm1 a1 cs1) := by
              simp [prune_to_targets, hk]
            simp [round1_children, hc, htop, hp, ihr, round1_keep, round1_refs,
              List.filterMap_cons, XNode.isElem, XNode.nameOf]
          · have hp : prune_to_targets (XNode.elem nm1 a1 cs1) ids
                = (true, pruneNode (keep_path_list (XNode.elem nm1 a1 cs1) ids) []
                    (XNode.elem nm1 a1 cs1)) := by
              simp [prune_to_targets, hk]
            have hcp : pruneNode (keep_path_list (XNode.elem nm1 a1 cs1) ids) []
                (XNode.elem nm1 a1 cs1)
                = XNode.elem nm1 a1 (pruneChildren
                    (keep_path_list (XNode.elem nm1 a1 cs1) ids) [] 0 cs1) := by
              simp [pruneNode]
            simp [round1_children, hc, htop, hp, ihr, round1_keep, round1_refs,
              List.filterMap_cons, XNode.isElem, XNode.nameOf, hcp, only_node_child]
      · simp [round1_children, hnm, ihr, round1_keep, round1_refs,
          List.filterMap_cons, XNode.isElem, XNode.nameOf]

/-! ## Helper lemmas: round 2 -/

theorem scan_sdm_children_eq (refs : Finset String) :
    ∀ cs : List XNode, cs.all sdmChildValid = true →
      scan_sdm_children refs cs =
        some (cs.filterMap (sdm_child_step refs), cs.any (target_kept refs),
          images_of cs) := by
  intro cs
  induction cs with
  | nil => intro _; simp [scan_sdm_children, images_of]
  | cons c cs ih =>
    intro hv
    simp only [List.all_cons, Bool.and_eq_true] at hv
    obtain ⟨hc, hcs⟩ := hv
    have ihr := ih hcs
    cases c with
    | text s => simp [sdmChildValid, XNode.isElem] at hc
    | elem nm a gs =>
      by_cases hnm : nm = "app:target"
      · subst hnm
        have hu0 : (target_uri (XNode.elem "app:target" a gs)).isSome = true := by
          simpa [sdmChildValid, XNode.isElem, XNode.nameOf] using hc
        obtain ⟨u, hu⟩ := Option.isSome_iff_exists.mp hu0
        by_cases hin : stripHash u ∈ refs
        · simp [scan_sdm_children, hu, hin, ihr, sdm_child_step, target_kept,
            XNode.isElem, XNode.nameOf, images_of, List.filterMap_cons]
        · simp [scan_sdm_children, hu, hin, ihr, sdm_child_step, target_kept,
            XNode.isElem, XNode.nameOf, images_of, List.filterMap_cons]
      · by_cases himg : nm = "app:imageURI"
        · subst himg
          have hs0 : (only_text_child (XNode.elem "app:imageURI" a gs)).isSome = true := by
            simpa [sdmChildValid, XNode.isElem, XNode.nameOf] using hc
          obtain ⟨s, hs⟩ := Option.isSome_iff_exists.mp hs0
          simp [scan_sdm_children, hs, ihr, sdm_child_step, target_kept,
            XNode.isElem, XNode.nameOf, images_of, List.filterMap_cons, hnm]
        · simp [scan_sdm_children, ihr, sdm_child_step, target_kept,
            XNode.isElem, XNode.nameOf, images_of, List.filterMap_cons, hnm, himg]

theorem round2_members_eq (refs : Finset String) :
    ∀ ms : List XNode, ms.all memberValid = true →
      round2_members refs ms =
        some (ms.map (member_rewrite refs),
          (ms.map (member_imgs_entry refs)).foldr (· ∪ ·) ∅) := by
  intro ms
  induction ms with
  | nil => intro _; simp [round2_members]
  | cons m ms ih =>
    intro hv
    simp only [List.all_cons, Bool.and_eq_true] at hv
    obtain ⟨hm, hms⟩ := hv
    have ihr := ih hms
    cases m with
    | text s => simp [memberValid, XNode.isElem] at hm
    | elem nm a cs =>
      by_cases hnm : nm = "app:surfaceDataMember"
      · subst hnm
        have hsv : sdmValid (XNode.elem "app:surfaceDataMember" a cs) = true := by
          simpa [memberValid, XNode.isElem, XNode.nameOf] using hm
        cases honc : only_node_child (XNode.elem "app:surfaceDataMember" a cs) with
        | none => rw [sdmValid, honc] at hsv; exact absurd hsv (by simp)
        | some m2 =>
          obtain ⟨nm0, a0, n2, a2, gs, htm, hm2⟩ := only_node_child_some honc
          subst hm2
          simp only [XNode.elem.injEq] at htm
          obtain ⟨-, rfl, rfl⟩ := htm
          have hall : gs.all sdmChildValid = true := by
            rw [sdmValid, honc] at hsv
            simpa [XNode.childrenOf] using hsv
          have hscan := scan_sdm_children_eq refs gs hall
          simp [round2_members, honc, hscan, ihr, member_rewrite, member_imgs_entry,
            member_images, sdm_images, XNode.isElem, XNode.nameOf, XNode.childrenOf,
            XNode.attrOf, List.any_eq_true, only_node_child]
      · simp [round2_members, hnm, ihr, member_rewrite, member_imgs_entry,
          XNode.isElem, XNode.nameOf]

theorem filter_members_eq :
    ∀ ms : List XNode, (∀ m ∈ ms, (keep_member m).isSome = true) →
      filter_members ms = some (ms.filter (fun m => (keep_member m).getD false)) := by
  intro ms
  induction ms with
  | nil => intro _; simp [filter_members]
  | cons m ms ih =>
    intro h
    obtain ⟨b, hb⟩ := Option.isSome_iff_exists.mp (h m (by simp))
    have ihr := ih (fun m hm => h m (by simp [hm]))
    cases b <;> simp [filter_members, hb, ihr]

theorem keep_member_rewrite_isSome (refs : Finset String) {m : XNode}
    (hm : memberValid m = true) : (keep_member (member_rewrite refs m)).isSome = true := by
  cases m with
  | text s => simp [memberValid, XNode.isElem] at hm
  | elem nm a cs =>
    by_cases hnm : nm = "app:surfaceDataMember"
    · subst hnm
      have hsv : sdmValid (XNode.elem "app:surfaceDataMember" a cs) = true := by
        simpa [memberValid, XNode.isElem, XNode.nameOf] using hm
      cases honc : only_node_child (XNode.elem "app:surfaceDataMember" a cs) with
      | none => rw [sdmValid, honc] at hsv; exact absurd hsv (by simp)
      | some m2 =>
        obtain ⟨nm0, a0, n2, a2, gs, htm, hm2⟩ := only_node_child_some honc
        subst hm2
        simp only [XNode.elem.injEq] at htm
        obtain ⟨-, rfl, rfl⟩ := htm
        simp [member_rewrite, keep_member, only_node_child, XNode.nameOf,
          XNode.childrenOf, XNode.isElem]
    · simp [member_rewrite, hnm, keep_member, XNode.nameOf]

theorem round2_toplevel_eq (refs : Finset String) {t : XNode}
    (hv : toplevelValid t = true) :
    round2_toplevel refs t = some (toplevel_rewrite refs t, toplevel_imgs refs t) := by
  cases t with
  | text s => simp [toplevelValid, XNode.isElem] at hv
  | elem nm a cs =>
    by_cases hnm : nm = "app:appearanceMember"
    · subst hnm
      cases honc : only_node_child (XNode.elem "app:appearanceMember" a cs) with
      | none =>
        rw [toplevelValid] at hv
        simp only [XNode.isElem, XNode.nameOf, honc] at hv
        simp at hv
      | some app =>
        obtain ⟨nm0, a0, anm, aa, ams, htm, happ⟩ := only_node_child_some honc
        subst happ
        have hv2 : (anm == "app:Appearance") = true ∧ ams.all memberValid = true := by
          rw [toplevelValid] at hv
          simp only [XNode.isElem, XNode.nameOf, honc, XNode.childrenOf] at hv
          simpa using hv
        obtain ⟨hanm, hall⟩ := hv2
        have hanm' : anm = "app:Appearance" := by simpa using hanm
        subst hanm'
        have hmem := round2_members_eq refs ams hall
        have hfm := filter_members_eq (ams.map (member_rewrite refs)) (by
          intro m' hm'
          obtain ⟨m, hmm, rfl⟩ := List.mem_map.mp hm'
          exact keep_member_rewrite_isSome refs (by
            have := List.all_eq_true.mp hall m hmm
            exact this))
        simp [round2_toplevel, honc, hmem, hfm, toplevel_rewrite, toplevel_imgs,
          appearance_members_out, XNode.isElem, XNode.nameOf, XNode.childrenOf]
    · simp [round2_toplevel, hnm, toplevel_rewrite, toplevel_imgs,
        XNode.nameOf, XNode.isElem]

theorem round2_children_eq (refs : Finset String) :
    ∀ ts : List XNode, ts.all toplevelValid = true →
      round2_children refs ts =
        some (ts.map (toplevel_rewrite refs),
          (ts.map (toplevel_imgs refs)).foldr (· ∪ ·) ∅) := by
  intro ts
  induction ts with
  | nil => intro _; simp [round2_children]
  | cons t ts ih =>
    intro hv
    simp only [List.all_cons, Bool.and_eq_true] at hv
    obtain ⟨ht, hts⟩ := hv
    simp [round2_children, round2_toplevel_eq refs ht, ih hts]

theorem filter_appearance_members_eq (refs : Finset String) {root : XNode}
    (hv : round2Valid root = true) :
    filter_appearance_members root refs =
      some (XNode.elem root.nameOf root.attrOf
        (root.childrenOf.map (toplevel_rewrite refs)), spec_images refs root) := by
  cases root with
  | text s => simp [round2Valid, XNode.isElem] at hv
  | elem nm a cs =>
    have hall : cs.all toplevelValid = true := by
      simpa [round2Valid, XNode.isElem, XNode.childrenOf] using hv
    simp [filter_appearance_members, round2_children_eq refs cs hall, spec_images,
      XNode.nameOf, XNode.attrOf, XNode.childrenOf]

theorem round1_children_some_valid (ids : List String) :
    ∀ (ts : List XNode) (x), round1_children ids ts = some x → round1Valid ts = true := by
  intro ts
  induction ts with
  | nil => intro x _; rfl
  | cons t ts ih =>
    intro x h
    cases t with
    | text s => simp [round1_children] at h
    | elem nm a cs =>
      simp only [round1_children] at h
      by_cases hnm : nm = "core:cityObjectMember"
      · subst hnm
        rw [if_neg (by simp)] at h
        cases honc : only_node_child (XNode.elem "core:cityObjectMember" a cs) with
        | none => rw [honc] at h; simp at h
        | some c =>
          rw [honc] at h
          simp only [Option.bind_eq_bind, Option.some_bind] at h
          have hts : ∃ y, round1_children ids ts = some y := by
            cases hrec : round1_children ids ts with
            | some y => exact ⟨y, rfl⟩
            | none =>
              rw [hrec] at h
              split at h
              · simp at h
              · split at h
                · simp at h
                · simp at h
          obtain ⟨y, hy⟩ := hts
          simp [round1Valid, honc, ih y hy]
      · rw [if_pos hnm] at h
        cases hrec : round1_children ids ts with
        | none => rw [hrec] at h; simp at h
        | some y => simp [round1Valid, hnm, ih y hrec]

theorem scan_sdm_children_some_valid (refs : Finset String) :
    ∀ (cs : List XNode) (x), scan_sdm_children refs cs = some x →
      cs.all sdmChildValid = true := by
  intro cs
  induction cs with
  | nil => intro x _; rfl
  | cons c cs ih =>
    intro x h
    cases c with
    | text s => simp [scan_sdm_children] at h
    | elem nm a gs =>
      simp only [scan_sdm_children] at h
      by_cases hnm : nm = "app:target"
      · subst hnm
        rw [if_neg (by simp)] at h
        cases hu : target_uri (XNode.elem "app:target" a gs) with
        | none => rw [hu] at h; simp at h
        | some u =>
          rw [hu] at h
          simp only [Option.bind_eq_bind, Option.some_bind] at h
          have hcs : ∃ y, scan_sdm_children refs cs = some y := by
            cases hrec : scan_sdm_children refs cs with
            | some y => exact ⟨y, rfl⟩
            | none => rw [hrec] at h; simp at h
          obtain ⟨y, hy⟩ := hcs
          simp [sdmChildValid, XNode.isElem, XNode.nameOf, hu, ih y hy]
      · rw [if_pos hnm] at h
        by_cases himg : nm = "app:imageURI"
        · subst himg
          rw [if_pos rfl] at h
          cases hs : only_text_child (XNode.elem "app:imageURI" a gs) with
          | none => rw [hs] at h; simp at h
          | some s =>
            rw [hs] at h
            simp only [Option.bind_eq_bind, Option.some_bind] at h
            have hcs : ∃ y, scan_sdm_children refs cs = some y := by
              cases hrec : scan_sdm_children refs cs with
              | some y => exact ⟨y, rfl⟩
              | none => rw [hrec] at h; simp at h
            obtain ⟨y, hy⟩ := hcs
            simp [sdmChildValid, XNode.isElem, XNode.nameOf, hnm, hs, ih y hy]
        · rw [if_neg himg] at h
          have hcs : ∃ y, scan_sdm_children refs cs = some y := by
            cases hrec : scan_sdm_children refs cs with
            | some y => exact ⟨y, rfl⟩
            | none => rw [hrec] at h; simp at h
          obtain ⟨y, hy⟩ := hcs
          simp [sdmChildValid, XNode.isElem, XNode.nameOf, hnm, himg, ih y hy]

theorem filter_members_some :
    ∀ (ms : List XNode) (l), filter_members ms = some l →
      ∀ m ∈ ms, (keep_member m).isSome = true := by
  intro ms
  induction ms with
  | nil => intro l _ m hm; simp at hm
  | cons m0 ms ih =>
    intro l h m hm
    simp only [filter_members] at h
    cases hk : keep_member m0 with
    | none => rw [hk] at h; simp at h
    | some b =>
      rw [hk] at h
      simp only [Option.bind_eq_bind, Option.some_bind] at h
      have hms : ∃ y, filter_members ms = some y := by
        cases hrec : filter_members ms with
        | some y => exact ⟨y, rfl⟩
        | none => rw [hrec] at h; simp at h
      obtain ⟨y, hy⟩ := hms
      rcases List.mem_cons.mp hm with rfl | hmem
      · simp [hk]
      · exact ih y hy m hmem

theorem sdm_child_step_target {refs : Finset String} {c c' : XNode}
    (h : sdm_child_step refs c = some c') (hname : c'.nameOf = "app:target") :
    target_kept refs c' = true := by
  cases c with
  | text s => simp [sdm_child_step] at h
  | elem nm a gs =>
    simp only [sdm_child_step] at h
    by_cases hnm : nm = "app:target"
    · subst hnm
      rw [if_neg (by simp)] at h
      cases hu : target_uri (XNode.elem "app:target" a gs) with
      | none => rw [hu] at h; simp at h
      | some u =>
        rw [hu] at h
        dsimp only at h
        by_cases hin : stripHash u ∈ refs
        · rw [if_pos hin] at h
          obtain rfl : XNode.elem "app:target" a gs = c' := by simpa using h
          simp [target_kept, XNode.isElem, XNode.nameOf, hu, hin]
        · rw [if_neg hin] at h; simp at h
    · rw [if_pos hnm] at h
      obtain rfl : XNode.elem nm a gs = c' := by simpa using h
      simp [XNode.nameOf] at hname
      exact absurd hname hnm

/-! ## Helper lemmas: pruning preservation (C3) -/

theorem prune_step_no_subfeature (keep : List (List Nat)) (pos : List Nat) (i : Nat)
    {c : XNode} (hnf : contains_subfeature c = false) :
    prune_step keep pos (i, c) = some c := by
  cases c with
  | text s => rfl
  | elem nm a gs =>
    by_cases h1 : (pos ++ [i]) ∈ keep
    · simp [prune_step, h1, pruneNode_eq_self keep _ hnf]
    · simp [prune_step, h1, hnf]

theorem prune_step_of_keep (keep : List (List Nat)) (pos : List Nat) (i : Nat)
    (c : XNode) (hk : (pos ++ [i]) ∈ keep) :
    prune_step keep pos (i, c) = some (pruneNode keep (pos ++ [i]) c) := by
  cases c with
  | text s => simp [prune_step, pruneNode]
  | elem nm a gs => simp [prune_step, hk]

theorem kept_child_mem (keep : List (List Nat)) (pos : List Nat) :
    ∀ (cs : List XNode) (i j : Nat) (c : XNode), cs.get? j = some c →
      contains_subfeature c = false → c ∈ pruneChildren keep pos i cs := by
  intro cs
  induction cs with
  | nil => intro i j c h; simp at h
  | cons c0 cs ih =>
    intro i j c hget hnf
    cases j with
    | zero =>
      obtain rfl : c0 = c := by simpa using hget
      cases c0 with
      | text s => simp [pruneChildren]
      | elem nm a gs =>
        by_cases h1 : (pos ++ [i]) ∈ keep
        · simp only [pruneChildren, if_pos h1]
          exact List.mem_cons.mpr (Or.inl (pruneNode_eq_self keep _ hnf _).symm)
        · simp [pruneChildren, h1, hnf]
    | succ j' =>
      have htail : c ∈ pruneChildren keep pos (i + 1) cs :=
        ih (i + 1) j' c (by simpa using hget) hnf
      cases c0 with
      | text s => simp [pruneChildren, htail]
      | elem nm a gs =>
        by_cases h1 : (pos ++ [i]) ∈ keep
        · simp [pruneChildren, h1, htail]
        · by_cases h2 : contains_subfeature (XNode.elem nm a gs)
          · simp [pruneChildren, h1, h2, htail]
          · simp [pruneChildren, h1, h2, htail]

theorem pruneChildren_get_kept (keep : List (List Nat)) (pos : List Nat) :
    ∀ (cs : List XNode) (j i : Nat) (c v : XNode),
      cs.get? j = some c → prune_step keep pos (i + j, c) = some v →
      (pruneChildren keep pos i cs).get? (kcount keep pos i cs j) = some v := by
  intro cs
  induction cs with
  | nil => intro j i c v h; simp at h
  | cons c0 cs ih =>
    intro j i c v hget hstep
    cases j with
    | zero =>
      obtain rfl : c0 = c := by simpa using hget
      rw [Nat.add_zero] at hstep
      have hk0 : kcount keep pos i (c0 :: cs) 0 = 0 := rfl
      rw [hk0, pruneChildren_eq_filterMap]
      simp only [List.enumFrom, List.filterMap_cons, hstep]
      rfl
    | succ j' =>
      have hget' : cs.get? j' = some c := by simpa using hget
      have hstep' : prune_step keep pos ((i + 1) + j', c) = some v := by
        have : (i + 1) + j' = i + (j' + 1) := by omega
        rw [this]
        exact hstep
      have ihr := ih j' (i + 1) c v hget' hstep'
      have hkc : kcount keep pos i (c0 :: cs) (j' + 1) =
          (if (prune_step keep pos (i, c0)).isSome then 1 else 0)
            + kcount keep pos (i + 1) cs j' := rfl
      rw [hkc]
      cases hs0 : prune_step keep pos (i, c0) with
      | none =>
        have hdrop : pruneChildren keep pos i (c0 :: cs)
            = pruneChildren keep pos (i + 1) cs := by
          rw [pruneChildren_eq_filterMap, pruneChildren_eq_filterMap]
          simp [List.enumFrom, List.filterMap_cons, hs0]
        rw [hdrop]
        simpa [hs0] using ihr
      | some v0 =>
        have hkeep : pruneChildren keep pos i (c0 :: cs)
            = v0 :: pruneChildren keep pos (i + 1) cs := by
          rw [pruneChildren_eq_filterMap, pruneChildren_eq_filterMap]
          simp [List.enumFrom, List.filterMap_cons, hs0]
        rw [hkeep]
        simpa [hs0, Nat.one_add] using ihr

theorem pruneNode_preserves (keep : List (List Nat)) (pos : List Nat) (m : XNode) :
    (pruneNode keep pos m).nameOf = m.nameOf
    ∧ (pruneNode keep pos m).attrOf = m.attrOf
    ∧ get_gml_id (pruneNode keep pos m) = get_gml_id m := by
  cases m with
  | text s => simp [pruneNode]
  | elem nm a cs =>
    simp [pruneNode, XNode.nameOf, XNode.attrOf, get_gml_id]

theorem pruneNode_nodeAt_commute (keep : List (List Nat)) :
    ∀ (q : List Nat) (n : XNode) (pos : List Nat) (m : XNode),
      nodeAt n q = some m →
      (∀ r, r <+: q → r ≠ [] → (pos ++ r) ∈ keep) →
      nodeAt (pruneNode keep pos n) (reindexPos keep n pos q)
        = some (pruneNode keep (pos ++ q) m) := by
  intro q
  induction q with
  | nil =>
    intro n pos m h _
    obtain rfl : n = m := by simpa [nodeAt] using h
    simp [reindexPos, nodeAt]
  | cons j q ih =>
    intro n pos m h hpre
    cases n with
    | text s => simp [nodeAt] at h
    | elem nm a cs =>
      rw [nodeAt] at h
      cases hc : cs.get? j with
      | none => rw [hc] at h; simp at h
      | some c =>
        rw [hc] at h
        dsimp only at h
        have hj : (pos ++ [j]) ∈ keep :=
          hpre [j] ⟨q, rfl⟩ (by simp)
        have hstep : prune_step keep pos (0 + j, c)
            = some (pruneNode keep (pos ++ [j]) c) := by
          rw [Nat.zero_add]
          exact prune_step_of_keep keep pos j c hj
        have hgot := pruneChildren_get_kept keep pos cs j 0 c
          (pruneNode keep (pos ++ [j]) c) hc hstep
        have hre : reindexPos keep (XNode.elem nm a cs) pos (j :: q)
            = kcount keep pos 0 cs j :: reindexPos keep c (pos ++ [j]) q := by
          rw [reindexPos, hc]
        rw [hre]
        have hpn : pruneNode keep pos (XNode.elem nm a cs)
            = XNode.elem nm a (pruneChildren keep pos 0 cs) := by
          rw [pruneNode]
        rw [hpn, nodeAt, hgot]
        dsimp only
        have hpre' : ∀ r, r <+: q → r ≠ [] → ((pos ++ [j]) ++ r) ∈ keep := by
          intro r hr hne
          have hrw : (pos ++ [j]) ++ r = pos ++ (j :: r) := by simp
          rw [hrw]
          exact hpre (j :: r) (List.cons_prefix_cons.mpr ⟨rfl, hr⟩) (by simp)
        rw [ih c (pos ++ [j]) m h hpre']
        have hassoc : (pos ++ [j]) ++ q = pos ++ (j :: q) := by simp
        rw [hassoc]

theorem keep_path_prefix_closed {n : XNode} {tids : List String} {p r : List Nat}
    (hp : p ∈ keep_path_list n tids) (hr : r <+: p) :
    r ∈ keep_path_list n tids := by
  obtain ⟨tid, htid, q, hq, hpre⟩ := mem_keep_path_list.mp hp
  exact mem_keep_path_list.mpr ⟨tid, htid, q, hq, hr.trans hpre⟩

theorem nodeAt_prefix_isSome :
    ∀ (r q : List Nat) (n : XNode), r <+: q → (nodeAt n q).isSome = true →
      (nodeAt n r).isSome = true := by
  intro r
  induction r with
  | nil => intro q n _ _; simp [nodeAt]
  | cons x r ih =>
    intro q n hpre hq
    cases q with
    | nil => simp [List.prefix_nil] at hpre
    | cons y q' =>
      obtain ⟨rfl, hr⟩ := List.cons_prefix_cons.mp hpre
      cases n with
      | text s => simp [nodeAt] at hq
      | elem nm a cs =>
        rw [nodeAt] at hq ⊢
        cases hc : cs.get? x with
        | none => rw [hc] at hq; simp at hq
        | some c =>
          rw [hc] at hq
          dsimp only at hq ⊢
          exact ih q' c hr hq

theorem find_pos_children_shape (tid : String) :
    ∀ (cs : List XNode) (i : Nat) (q : List Nat),
      find_pos_children cs i tid = some q →
      ∃ j r c, q = (i + j) :: r ∧ cs.get? j = some c ∧
        find_path_pos c tid = some r := by
  intro cs
  induction cs with
  | nil => intro i q h; simp [find_pos_children] at h
  | cons c0 cs ih =>
    intro i q h
    rw [find_pos_children] at h
    cases h0 : find_path_pos c0 tid with
    | some r =>
      rw [h0] at h
      obtain rfl : (i :: r) = q := by simpa using h
      exact ⟨0, r, c0, by simp, by simp, h0⟩
    | none =>
      rw [h0] at h
      obtain ⟨j, r, c, rfl, hget, hfp⟩ := ih (i + 1) q h
      exact ⟨j + 1, r, c, by rw [Nat.add_comm j 1, ← Nat.add_assoc], by simpa using hget, hfp⟩

theorem find_path_pos_nodeAt :
    ∀ (n : XNode) (tid : String) (q : List Nat), find_path_pos n tid = some q →
      ∃ m, nodeAt n q = some m ∧ get_gml_id m = some tid := by
  intro n
  induction n using XNode.strongInd with
  | htext s => intro tid q h; simp [find_path_pos] at h
  | helem nm a cs ih =>
    intro tid q h
    rw [find_path_pos] at h
    split_ifs at h with hid
    · obtain rfl : ([] : List Nat) = q := by simpa using h
      exact ⟨XNode.elem nm a cs, by simp [nodeAt], hid⟩
    · obtain ⟨j, r, c, rfl, hget, hfp⟩ := find_pos_children_shape tid cs 0 q h
      obtain ⟨m, hm, hmid⟩ := ih c (List.get?_mem hget) tid r hfp
      refine ⟨m, ?_, hmid⟩
      rw [Nat.zero_add, nodeAt, hget]
      exact hm

/-! ## Claims C1, C2, C9 -/

/-- C1: round-1 postcondition of `filter_gml_content`.  On a parsed
`core:CityModel` document whose members pass the arity assertions, round 1
keeps a `cityObjectMember` unchanged when its single city-object child's own
`gml:id` is targeted, otherwise keeps it (pruned in place) iff the Pruner
retains it; non-member children pass through unchanged; and the referred-ids
set equals the union, over kept members, of the Id Indexer over the member's
(now pruned) city-object subtree — all as captured by the specification-side
`round1_keep` / `round1_refs`. -/
theorem claim_C1 (a : String) (cs : List XNode) (ids : List String)
    (hv : round1Valid cs = true) :
    filter_round1 (XNode.elem "core:CityModel" a cs) ids =
      some (XNode.elem "core:CityModel" a (cs.filterMap (round1_keep ids)),
        round1_refs ids cs) := by
  simp [filter_round1, round1_children_eq ids cs hv]

/-- Witness for C1 at a concrete one-member document. -/
theorem claim_C1_witness :
    filter_round1
      (XNode.elem "core:CityModel" ""
        [XNode.elem "core:cityObjectMember" ""
          [XNode.elem "bldg:Building" "gml:id=\"B1\"" []]]) ["B1"] =
      some (XNode.elem "core:CityModel" ""
        ([XNode.elem "core:cityObjectMember" ""
          [XNode.elem "bldg:Building" "gml:id=\"B1\"" []]].filterMap (round1_keep ["B1"])),
        round1_refs ["B1"]
          [XNode.elem "core:cityObjectMember" ""
            [XNode.elem "bldg:Building" "gml:id=\"B1\"" []]]) :=
  claim_C1 ""
    [XNode.elem "core:cityObjectMember" ""
      [XNode.elem "bldg:Building" "gml:id=\"B1\"" []]] ["B1"] (by decide)

/-- C2: `prune_to_targets` returns `true` iff some target id has a found path
in the subtree (the identity-based keep-path set is non-empty), and when it
does, the tree has been rewritten top-down so that a child is kept exactly
when it is text, or on the keep-path set (recursed into), or its subtree
contains no feature node (the specification-side rewrite `pruneSpecNode`). -/
theorem claim_C2 (n : XNode) (tids : List String) :
    ((prune_to_targets n tids).1 = true ↔
      ∃ tid ∈ tids, (find_path_to n tid).isSome = true)
    ∧ ((prune_to_targets n tids).1 = true →
        (prune_to_targets n tids).2 = pruneSpecNode (keep_path_list n tids) [] n) := by
  constructor
  · constructor
    · intro h
      by_cases hk : keep_path_list n tids = []
      · simp [prune_to_targets, hk] at h
      · obtain ⟨p, hp⟩ := List.exists_mem_of_ne_nil _ hk
        obtain ⟨tid, htid, q, hq, -⟩ := mem_keep_path_list.mp hp
        refine ⟨tid, htid, ?_⟩
        rw [find_path_isSome_eq, hq]
        rfl
    · rintro ⟨tid, htid, hsome⟩
      rw [find_path_isSome_eq] at hsome
      obtain ⟨q, hq⟩ := Option.isSome_iff_exists.mp hsome
      have hmem : q ∈ keep_path_list n tids :=
        mem_keep_path_list.mpr ⟨tid, htid, q, hq, List.prefix_refl q⟩
      have hk : keep_path_list n tids ≠ [] := by
        intro h0
        rw [h0] at hmem
        simp at hmem
      simp [prune_to_targets, hk]
  · intro h
    by_cases hk : keep_path_list n tids = []
    · simp [prune_to_targets, hk] at h
    · simp [prune_to_targets, hk, pruneSpecNode_eq]

/-- Witness for C2's conditional part at a concrete subtree. -/
theorem claim_C2_witness :
    (prune_to_targets (XNode.elem "b" "gml:id=\"t\"" []) ["t"]).2
      = pruneSpecNode (keep_path_list (XNode.elem "b" "gml:id=\"t\"" []) ["t"]) []
          (XNode.elem "b" "gml:id=\"t\"" []) :=
  (claim_C2 (XNode.elem "b" "gml:id=\"t\"" []) ["t"]).2 (by decide)

/-- C9: fatal structural violations (wrong root tag, or a
`core:cityObjectMember` without exactly one element child) abort the whole
filtering call with no partial output (`none`). -/
theorem claim_C9 (root : XNode) (ids : List String)
    (h : root.nameOf ≠ "core:CityModel" ∨
      ∃ t ∈ root.childrenOf, t.nameOf = "core:cityObjectMember" ∧
        only_node_child t = none) :
    filter_gml_tree root ids = none := by
  cases root with
  | text s => simp [filter_gml_tree, filter_round1]
  | elem nm a cs =>
    by_cases hnm : nm = "core:CityModel"
    · subst hnm
      rcases h with h | h
      · simp [XNode.nameOf] at h
      · simp only [XNode.childrenOf] at h
        simp [filter_gml_tree, filter_round1, round1_children_none ids cs h]
    · simp [filter_gml_tree, filter_round1, hnm]

/-- Witness for C9 at a wrong root tag. -/
theorem claim_C9_witness : filter_gml_tree (XNode.elem "X" "" []) [] = none :=
  claim_C9 (XNode.elem "X" "" []) [] (Or.inl (by decide))

/-! ## Helper lemmas: the Target Path Finder (C7) -/

theorem matchesB_nil (n : XNode) (tid : String) :
    matchesB n tid [] = (get_gml_id n == some tid) := by
  simp [matchesB, nodeAt]

theorem matchesB_cons_zero (nm a : String) (c : XNode) (cs : List XNode)
    (tid : String) (p : List Nat) :
    matchesB (XNode.elem nm a (c :: cs)) tid (0 :: p) = matchesB c tid p := by
  simp [matchesB, nodeAt]

theorem matchesB_cons_succ (nm a : String) (c : XNode) (cs : List XNode)
    (tid : String) (j : Nat) (p : List Nat) :
    matchesB (XNode.elem nm a (c :: cs)) tid ((j + 1) :: p)
      = matchesB (XNode.elem nm a cs) tid (j :: p) := by
  simp [matchesB, nodeAt]

theorem preorderPosList_shift :
    ∀ (cs : List XNode) (i : Nat),
      preorderPosList cs (i + 1) = (preorderPosList cs i).map shiftHead := by
  intro cs
  induction cs with
  | nil => intro i; simp [preorderPosList]
  | cons c cs ih =>
    intro i
    rw [preorderPosList, preorderPosList, List.map_append, List.map_map, ih (i + 1)]
    congr 1

theorem find_pos_children_shift (tid : String) :
    ∀ (cs : List XNode) (i : Nat),
      find_pos_children cs (i + 1) tid = (find_pos_children cs i tid).map shiftHead := by
  intro cs
  induction cs with
  | nil => intro i; simp [find_pos_children]
  | cons c cs ih =>
    intro i
    rw [find_pos_children, find_pos_children]
    cases h : find_path_pos c tid with
    | some r => simp [shiftHead]
    | none => simpa using ih (i + 1)

theorem find_path_to_eq_of_pos :
    ∀ (n : XNode) (tid : String) (q : List Nat), find_path_pos n tid = some q →
      find_path_to n tid = some ((prefixesOf q).filterMap (nodeAt n)) := by
  intro n
  induction n using XNode.strongInd with
  | htext s => intro tid q h; simp [find_path_pos] at h
  | helem nm a cs ih =>
    intro tid q h
    rw [find_path_pos] at h
    rw [find_path_to]
    split_ifs at h ⊢ with hid
    · obtain rfl : ([] : List Nat) = q := by simpa using h
      simp [prefixesOf, nodeAt]
    · suffices hs : ∀ (ds : List XNode), (∀ c ∈ ds, c ∈ cs) → ∀ i q',
          find_pos_children ds i tid = some q' →
          ∃ j r c, q' = (i + j) :: r ∧ ds.get? j = some c ∧
            find_path_pos c tid = some r ∧
            find_path_children ds tid = some ((prefixesOf r).filterMap (nodeAt c)) by
        obtain ⟨j, r, c, rfl, hget, hfp, hfc⟩ := hs cs (fun c h => h) 0 q h
        rw [hfc]
        simp only [Option.map_some']
        congr 1
        rw [Nat.zero_add, prefixesOf, List.filterMap_cons]
        have hget2 : cs[j]? = some c := by simpa using hget
        have hfun : (fun p => nodeAt (XNode.elem nm a cs) (j :: p)) = nodeAt c := by
          funext p
          simp [nodeAt, hget2]
        have hhead : nodeAt (XNode.elem nm a cs) [] = some (XNode.elem nm a cs) := rfl
        rw [hhead]
        dsimp only
        rw [List.filterMap_map]
        congr 1
        congr 1
        exact hfun.symm
      intro ds hsub
      induction ds with
      | nil => intro i q' h'; simp [find_pos_children] at h'
      | cons c0 ds ihd =>
        intro i q' h'
        rw [find_pos_children] at h'
        cases h0 : find_path_pos c0 tid with
        | some r =>
          rw [h0] at h'
          obtain rfl : (i :: r) = q' := by simpa using h'
          have hto := ih c0 (hsub c0 (by simp)) tid r h0
          exact ⟨0, r, c0, by simp, by simp, h0, by simp [find_path_children, hto]⟩
        | none =>
          rw [h0] at h'
          have hto : find_path_to c0 tid = none := by
            have hiso := find_path_isSome_eq c0 tid
            rw [h0] at hiso
            simpa using hiso
          obtain ⟨j, r, c, rfl, hget, hfp, hfc⟩ :=
            ihd (fun c hc => hsub c (by simp [hc])) (i + 1) q' h'
          refine ⟨j + 1, r, c, ?_, by simpa using hget, hfp, ?_⟩
          · congr 1
            omega
          · simp [find_path_children, hto, hfc]

theorem preorder_first_match :
    ∀ (n : XNode) (tid : String),
      ((preorderPos n).filter (matchesB n tid)).head? = find_path_pos n tid := by
  intro n
  induction n using XNode.strongInd with
  | htext s =>
    intro tid
    simp [preorderPos, matchesB, nodeAt, get_gml_id, find_path_pos, List.filter]
  | helem nm a cs ih =>
    intro tid
    rw [preorderPos, find_path_pos]
    by_cases hid : get_gml_id (XNode.elem nm a cs) = some tid
    · rw [if_pos hid]
      have hm : matchesB (XNode.elem nm a cs) tid [] = true := by
        simp [matchesB_nil, hid]
      simp [List.filter_cons, hm]
    · rw [if_neg hid]
      have hm : matchesB (XNode.elem nm a cs) tid [] = false := by
        simp [matchesB_nil, hid]
      rw [List.filter_cons]
      simp only [hm, Bool.false_eq_true, if_false]
      suffices G : ∀ (ds : List XNode), (∀ c ∈ ds, c ∈ cs) → ∀ (nm' a' : String),
          ((preorderPosList ds 0).filter (matchesB (XNode.elem nm' a' ds) tid)).head?
            = find_pos_children ds 0 tid by
        exact G cs (fun c h => h) nm a
      intro ds hsub
      induction ds with
      | nil => intro nm' a'; simp [preorderPosList, find_pos_children]
      | cons c0 ds ihd =>
        intro nm' a'
        rw [preorderPosList, find_pos_children]
        have h1 : preorderPosList ds 1 = (preorderPosList ds 0).map shiftHead :=
          preorderPosList_shift ds 0
        rw [h1, List.filter_append, List.filter_map, List.filter_map]
        have hf0 : (matchesB (XNode.elem nm' a' (c0 :: ds)) tid ∘ (fun p => 0 :: p))
            = matchesB c0 tid := by
          funext p
          exact matchesB_cons_zero nm' a' c0 ds tid p
        have hfs : (matchesB (XNode.elem nm' a' (c0 :: ds)) tid ∘ shiftHead)
            = matchesB (XNode.elem nm' a' ds) tid := by
          funext p
          cases p with
          | nil => rfl
          | cons j r => exact matchesB_cons_succ nm' a' c0 ds tid j r
        rw [hf0, hfs]
        cases hcase : find_path_pos c0 tid with
        | some r =>
          have hhead := ih c0 (hsub c0 (by simp)) tid
          rw [hcase] at hhead
          cases hfl : (preorderPos c0).filter (matchesB c0 tid) with
          | nil => rw [hfl] at hhead; simp at hhead
          | cons x xs =>
            rw [hfl] at hhead
            obtain rfl : x = r := by simpa using hhead
            simp
        | none =>
          have hhead := ih c0 (hsub c0 (by simp)) tid
          rw [hcase] at hhead
          have hfl : (preorderPos c0).filter (matchesB c0 tid) = [] := by
            cases hfl : (preorderPos c0).filter (matchesB c0 tid) with
            | nil => rfl
            | cons x xs => rw [hfl] at hhead; simp at hhead
          rw [hfl]
          simp only [List.map_nil, List.nil_append, List.head?_map]
          rw [ihd (fun c hc => hsub c (by simp [hc])) nm' a']
          exact (find_pos_children_shift tid ds 0).symm

/-- C7: `find_path_to` finds a target id iff some descendant-or-self element
carries it; the found position is the first match in depth-first pre-order
(document order, head of the filtered pre-order position list), and the
returned node list is the ordered chain from the subtree root to that first
matching node, inclusive of both ends (the nodes at the prefixes of the found
position).  With duplicate ids this picks the first match in document order. -/
theorem claim_C7 (n : XNode) (tid : String) :
    ((find_path_to n tid).isSome = true ↔
      ∃ p ∈ preorderPos n, matchesB n tid p = true)
    ∧ ((preorderPos n).filter (matchesB n tid)).head? = find_path_pos n tid
    ∧ (∀ q, find_path_pos n tid = some q →
        find_path_to n tid = some ((prefixesOf q).filterMap (nodeAt n))
        ∧ matchesB n tid q = true) := by
  refine ⟨?_, preorder_first_match n tid, ?_⟩
  · rw [find_path_isSome_eq, ← preorder_first_match]
    constructor
    · intro h
      obtain ⟨p, hp⟩ := Option.isSome_iff_exists.mp h
      have hmem : p ∈ (preorderPos n).filter (matchesB n tid) :=
        List.mem_of_mem_head? (by rw [hp]; simp)
      obtain ⟨h1, h2⟩ := List.mem_filter.mp hmem
      exact ⟨p, h1, h2⟩
    · rintro ⟨p, hp, hm⟩
      have hmem : p ∈ (preorderPos n).filter (matchesB n tid) :=
        List.mem_filter.mpr ⟨hp, hm⟩
      cases hf : (preorderPos n).filter (matchesB n tid) with
      | nil => rw [hf] at hmem; simp at hmem
      | cons x xs => simp [hf]
  · intro q hq
    refine ⟨find_path_to_eq_of_pos n tid q hq, ?_⟩
    obtain ⟨m, hm, hid⟩ := find_path_pos_nodeAt n tid q hq
    simp [matchesB, hm, hid]

/-- Witness for C7's conditional part at a concrete subtree. -/
theorem claim_C7_witness :
    find_path_to
        (XNode.elem "bldg:Building" "gml:id=\"B1\""
          [XNode.elem "bldg:BuildingPart" "gml:id=\"P1\"" []]) "P1"
      = some ((prefixesOf [0]).filterMap (nodeAt
          (XNode.elem "bldg:Building" "gml:id=\"B1\""
            [XNode.elem "bldg:BuildingPart" "gml:id=\"P1\"" []])))
    ∧ matchesB (XNode.elem "bldg:Building" "gml:id=\"B1\""
        [XNode.elem "bldg:BuildingPart" "gml:id=\"P1\"" []]) "P1" [0] = true :=
  (claim_C7 (XNode.elem "bldg:Building" "gml:id=\"B1\""
    [XNode.elem "bldg:BuildingPart" "gml:id=\"P1\"" []]) "P1").2.2 [0] (by decide)

/-! ## Claim C3 -/

/-- C3 counterexample: the claim "any branch whose subtree contains no
feature node is preserved entirely untouched — whether or not it relates to
any target" is false as stated: a feature-free branch (here the
`gml:Solid` with id G2) nested inside an unrelated sibling feature is removed
together with that dropped feature. -/
theorem claim_C3_counterexample :
    (prune_to_targets
        (XNode.elem "bldg:Building" "gml:id=\"B1\""
          [XNode.elem "bldg:consistsOfBuildingPart" ""
            [XNode.elem "bldg:BuildingPart" "gml:id=\"P1\"" []],
           XNode.elem "bldg:consistsOfBuildingPart" ""
            [XNode.elem "bldg:BuildingPart" "gml:id=\"P2\""
              [XNode.elem "gml:Solid" "gml:id=\"G2\"" []]]]) ["P1"]).1 = true
    ∧ nodeAt (XNode.elem "bldg:Building" "gml:id=\"B1\""
          [XNode.elem "bldg:consistsOfBuildingPart" ""
            [XNode.elem "bldg:BuildingPart" "gml:id=\"P1\"" []],
           XNode.elem "bldg:consistsOfBuildingPart" ""
            [XNode.elem "bldg:BuildingPart" "gml:id=\"P2\""
              [XNode.elem "gml:Solid" "gml:id=\"G2\"" []]]]) [1, 0, 0]
        = some (XNode.elem "gml:Solid" "gml:id=\"G2\"" [])
    ∧ contains_subfeature (XNode.elem "gml:Solid" "gml:id=\"G2\"" []) = false
    ∧ XNode.elem "gml:Solid" "gml:id=\"G2\"" [] ∉
        allNodes (prune_to_targets
          (XNode.elem "bldg:Building" "gml:id=\"B1\""
            [XNode.elem "bldg:consistsOfBuildingPart" ""
              [XNode.elem "bldg:BuildingPart" "gml:id=\"P1\"" []],
             XNode.elem "bldg:consistsOfBuildingPart" ""
              [XNode.elem "bldg:BuildingPart" "gml:id=\"P2\""
                [XNode.elem "gml:Solid" "gml:id=\"G2\"" []]]]) ["P1"]).2 := by
  decide

/-- C3 (amended): pruning never removes a node lying on a found path — the
node survives at its reindexed position with name, attribute text and gml:id
intact — and any feature-free branch the rewrite examines (a child of the
subtree root or of a keep-path node) is preserved entirely untouched.
Feature-free data nested inside a dropped sibling feature is removed with it,
which is the one correction to the claim. -/
theorem claim_C3_amended (n : XNode) (tids : List String) :
    (∀ tid ∈ tids, ∀ q, find_path_pos n tid = some q →
      ∀ k, k ≤ q.length →
        ∃ m, nodeAt n (q.take k) = some m ∧
          nodeAt (prune_to_targets n tids).2
              (reindexPos (keep_path_list n tids) n [] (q.take k))
            = some (pruneNode (keep_path_list n tids) (q.take k) m) ∧
          (pruneNode (keep_path_list n tids) (q.take k) m).nameOf = m.nameOf ∧
          (pruneNode (keep_path_list n tids) (q.take k) m).attrOf = m.attrOf ∧
          get_gml_id (pruneNode (keep_path_list n tids) (q.take k) m)
            = get_gml_id m)
    ∧ (∀ p m, (p = [] ∨ p ∈ keep_path_list n tids) → nodeAt n p = some m →
        ∀ j c, m.childrenOf.get? j = some c → contains_subfeature c = false →
          ∃ m', nodeAt (prune_to_targets n tids).2
              (reindexPos (keep_path_list n tids) n [] p) = some m' ∧
            c ∈ m'.childrenOf) := by
  constructor
  · intro tid htid q hq k hk
    have hqmem : q ∈ keep_path_list n tids :=
      mem_keep_path_list.mpr ⟨tid, htid, q, hq, List.prefix_refl q⟩
    have hkne : keep_path_list n tids ≠ [] := by
      intro h0; rw [h0] at hqmem; simp at hqmem
    have hp2 : (prune_to_targets n tids).2
        = pruneNode (keep_path_list n tids) [] n := by
      simp [prune_to_targets, hkne]
    obtain ⟨mt, hmt, -⟩ := find_path_pos_nodeAt n tid q hq
    have htk : q.take k <+: q := List.take_prefix k q
    have hsome : (nodeAt n (q.take k)).isSome = true :=
      nodeAt_prefix_isSome (q.take k) q n htk (by rw [hmt]; rfl)
    obtain ⟨m, hm⟩ := Option.isSome_iff_exists.mp hsome
    refine ⟨m, hm, ?_, (pruneNode_preserves _ _ m).1,
      (pruneNode_preserves _ _ m).2.1, (pruneNode_preserves _ _ m).2.2⟩
    rw [hp2]
    have hcomm := pruneNode_nodeAt_commute (keep_path_list n tids) (q.take k) n [] m
      hm (fun r hr hne => by
        rw [List.nil_append]
        exact keep_path_prefix_closed hqmem (hr.trans htk))
    rw [List.nil_append] at hcomm
    exact hcomm
  · intro p m hp hm j c hget hnf
    have hcm : c ∈ m.childrenOf := by
      cases hmem : m.childrenOf with
      | nil => rw [hmem] at hget; simp at hget
      | cons x xs => rw [← hmem]; exact List.get?_mem hget
    rcases hp with rfl | hpk
    · obtain rfl : n = m := by simpa [nodeAt] using hm
      by_cases hk : keep_path_list n tids = []
      · refine ⟨n, ?_, hcm⟩
        simp [prune_to_targets, hk, reindexPos, nodeAt]
      · cases n with
        | text s => simp [XNode.childrenOf] at hget
        | elem nm a cs =>
          refine ⟨XNode.elem nm a
            (pruneChildren (keep_path_list (XNode.elem nm a cs) tids) [] 0 cs), ?_, ?_⟩
          · simp [prune_to_targets, hk, reindexPos, nodeAt, pruneNode]
          · simp only [XNode.childrenOf] at hget ⊢
            exact kept_child_mem _ [] cs 0 j c hget hnf
    · have hkne : keep_path_list n tids ≠ [] := by
        intro h0; rw [h0] at hpk; simp at hpk
      have hp2 : (prune_to_targets n tids).2
          = pruneNode (keep_path_list n tids) [] n := by
        simp [prune_to_targets, hkne]
      have hcomm := pruneNode_nodeAt_commute (keep_path_list n tids) p n [] m
        hm (fun r hr hne => by
          rw [List.nil_append]
          exact keep_path_prefix_closed hpk hr)
      rw [List.nil_append] at hcomm
      cases m with
      | text s => simp [XNode.childrenOf] at hget
      | elem nm a cs =>
        refine ⟨pruneNode (keep_path_list n tids) p (XNode.elem nm a cs), ?_, ?_⟩
        · rw [hp2]; exact hcomm
        · simp only [XNode.childrenOf, pruneNode] at hget ⊢
          exact kept_child_mem _ p cs 0 j c hget hnf

/-- Witness for C3's amended statement at a concrete subtree. -/
theorem claim_C3_amended_witness :
    ∃ m, nodeAt (XNode.elem "b" "gml:id=\"t\"" []) (([] : List Nat).take 0) = some m ∧
      nodeAt (prune_to_targets (XNode.elem "b" "gml:id=\"t\"" []) ["t"]).2
          (reindexPos (keep_path_list (XNode.elem "b" "gml:id=\"t\"" []) ["t"])
            (XNode.elem "b" "gml:id=\"t\"" []) [] (([] : List Nat).take 0))
        = some (pruneNode (keep_path_list (XNode.elem "b" "gml:id=\"t\"" []) ["t"])
            (([] : List Nat).take 0) m) ∧
      (pruneNode (keep_path_list (XNode.elem "b" "gml:id=\"t\"" []) ["t"])
          (([] : List Nat).take 0) m).nameOf = m.nameOf ∧
      (pruneNode (keep_path_list (XNode.elem "b" "gml:id=\"t\"" []) ["t"])
          (([] : List Nat).take 0) m).attrOf = m.attrOf ∧
      get_gml_id (pruneNode (keep_path_list (XNode.elem "b" "gml:id=\"t\"" []) ["t"])
          (([] : List Nat).take 0) m) = get_gml_id m :=
  (claim_C3_amended (XNode.elem "b" "gml:id=\"t\"" []) ["t"]).1
    "t" (by decide) [] (by decide) 0 (by decide)

/-! ## Claims C5, C6, C10 -/

/-- C5: the Appearance Filter returns exactly the `app:imageURI` text values
of the surfaceDataMembers that kept at least one `app:target`, where a target
is kept iff its reference (`uri=` attribute if present, else bare text, with a
leading `#` stripped) is in the referred-ids set — the specification-side
`spec_images`. -/
theorem claim_C5 (root : XNode) (refs : Finset String) (hv : round2Valid root = true) :
    (filter_appearance_members root refs).map (fun p => p.2) =
      some (spec_images refs root) := by
  rw [filter_appearance_members_eq refs hv]
  rfl

/-- Witness for C5 at a concrete appearance document. -/
theorem claim_C5_witness :
    (filter_appearance_members
      (XNode.elem "core:CityModel" ""
        [XNode.elem "app:appearanceMember" ""
          [XNode.elem "app:Appearance" ""
            [XNode.elem "app:surfaceDataMember" ""
              [XNode.elem "app:ParameterizedTexture" ""
                [XNode.elem "app:imageURI" "" [XNode.text "tex1.jpg"],
                 XNode.elem "app:target" "uri=\"#B1\"" [],
                 XNode.elem "app:target" "" [XNode.text "#B2"]]]]]]) {"B1"}).map
        (fun p => p.2) =
      some (spec_images {"B1"}
        (XNode.elem "core:CityModel" ""
          [XNode.elem "app:appearanceMember" ""
            [XNode.elem "app:Appearance" ""
              [XNode.elem "app:surfaceDataMember" ""
                [XNode.elem "app:ParameterizedTexture" ""
                  [XNode.elem "app:imageURI" "" [XNode.text "tex1.jpg"],
                   XNode.elem "app:target" "uri=\"#B1\"" [],
                   XNode.elem "app:target" "" [XNode.text "#B2"]]]]]])) :=
  claim_C5 _ _ (by decide)

/-- C6: after round 2 every `app:surfaceDataMember` still present under an
`app:Appearance` has at least one `app:target` child whose referenced id is in
the referred-ids set (so members left with zero targets were removed). -/
theorem claim_C6 (root : XNode) (refs : Finset String) (root' : XNode)
    (imgs : Finset String) (hv : round2Valid root = true)
    (hr : filter_appearance_members root refs = some (root', imgs)) :
    ∀ t' ∈ root'.childrenOf, t'.nameOf = "app:appearanceMember" →
      ∀ app', only_node_child t' = some app' →
        ∀ m' ∈ app'.childrenOf, m'.nameOf = "app:surfaceDataMember" →
          ∃ m2', only_node_child m' = some m2' ∧
            ∃ c ∈ m2'.childrenOf, c.nameOf = "app:target" ∧
              target_kept refs c = true := by
  rw [filter_appearance_members_eq refs hv, Option.some_inj, Prod.ext_iff] at hr
  obtain ⟨hX, -⟩ := hr
  subst hX
  have hall : ∀ u ∈ root.childrenOf, toplevelValid u = true := by
    have h2 := hv
    simp only [round2Valid, Bool.and_eq_true, List.all_eq_true] at h2
    exact h2.2
  intro t' ht' hname' app' happ' m' hm' hname2
  simp only [XNode.childrenOf] at ht'
  obtain ⟨t, htmem, rfl⟩ := List.mem_map.mp ht'
  have hvt : toplevelValid t = true := hall t htmem
  cases t with
  | text s => simp [toplevelValid, XNode.isElem] at hvt
  | elem nm a cs0 =>
    by_cases hnm : nm = "app:appearanceMember"
    · subst hnm
      cases honc : only_node_child (XNode.elem "app:appearanceMember" a cs0) with
      | none =>
        rw [toplevelValid] at hvt
        simp [XNode.isElem, XNode.nameOf, honc] at hvt
      | some app =>
        obtain ⟨nm0, a0, anm, aa, ams, htm, happ2⟩ := only_node_child_some honc
        subst happ2
        simp only [XNode.elem.injEq] at htm
        obtain ⟨-, rfl, rfl⟩ := htm
        have hv2 : (anm == "app:Appearance") = true ∧ ams.all memberValid = true := by
          rw [toplevelValid] at hvt
          simp only [XNode.isElem, XNode.nameOf, honc, XNode.childrenOf] at hvt
          simpa using hvt
        obtain ⟨hanm, hall2⟩ := hv2
        have hanm' : anm = "app:Appearance" := by simpa using hanm
        subst hanm'
        have ht'eq : toplevel_rewrite refs
            (XNode.elem "app:appearanceMember" a [XNode.elem "app:Appearance" aa ams])
            = XNode.elem "app:appearanceMember" a
                [XNode.elem "app:Appearance" aa (appearance_members_out refs ams)] := by
          simp [toplevel_rewrite, only_node_child]
        rw [ht'eq] at happ'
        have happeq : app' = XNode.elem "app:Appearance" aa
            (appearance_members_out refs ams) := by
          simpa [only_node_child] using happ'.symm
        subst happeq
        simp only [XNode.childrenOf] at hm'
        obtain ⟨hm'map, hpred⟩ := List.mem_filter.mp hm'
        obtain ⟨m, hmmem, rfl⟩ := List.mem_map.mp hm'map
        have hvm : memberValid m = true := List.all_eq_true.mp hall2 m hmmem
        cases m with
        | text s => simp [memberValid, XNode.isElem] at hvm
        | elem mn ma mcs =>
          by_cases hmn : mn = "app:surfaceDataMember"
          · subst hmn
            have hsv : sdmValid (XNode.elem "app:surfaceDataMember" ma mcs) = true := by
              simpa [memberValid, XNode.isElem, XNode.nameOf] using hvm
            cases honc2 : only_node_child (XNode.elem "app:surfaceDataMember" ma mcs) with
            | none => rw [sdmValid, honc2] at hsv; exact absurd hsv (by simp)
            | some m2 =>
              obtain ⟨nm1, a1, n2, a2, gs, htm2, hm22⟩ := only_node_child_some honc2
              subst hm22
              simp only [XNode.elem.injEq] at htm2
              obtain ⟨-, rfl, rfl⟩ := htm2
              have hrw : member_rewrite refs
                  (XNode.elem "app:surfaceDataMember" ma [XNode.elem n2 a2 gs])
                  = XNode.elem "app:surfaceDataMember" ma
                      [XNode.elem n2 a2 (gs.filterMap (sdm_child_step refs))] := by
                simp [member_rewrite, only_node_child]
              rw [hrw] at hpred
              refine ⟨XNode.elem n2 a2 (gs.filterMap (sdm_child_step refs)),
                by rw [hrw]; rfl, ?_⟩
              have hex : ∃ c ∈ gs.filterMap (sdm_child_step refs),
                  (c.isElem && c.nameOf == "app:target") = true := by
                simp only [keep_member, only_node_child, XNode.childrenOf] at hpred
                simp only [Option.getD] at hpred
                rw [← List.any_eq_true]
                simpa using hpred
              obtain ⟨c, hcL, hc⟩ := hex
              have hcname : c.nameOf = "app:target" := by
                simp only [Bool.and_eq_true, beq_iff_eq] at hc
                exact hc.2
              obtain ⟨c0, hc0, hstep⟩ := List.mem_filterMap.mp hcL
              exact ⟨c, by simp [XNode.childrenOf, hcL], hcname,
                sdm_child_step_target hstep hcname⟩
          · have hid : member_rewrite refs (XNode.elem mn ma mcs)
                = XNode.elem mn ma mcs := by
              simp [member_rewrite, hmn]
            rw [hid] at hname2
            simp only [XNode.nameOf] at hname2
            exact absurd hname2 hmn
    · have hid : toplevel_rewrite refs (XNode.elem nm a cs0) = XNode.elem nm a cs0 := by
        simp [toplevel_rewrite, hnm]
      rw [hid] at hname'
      simp only [XNode.nameOf] at hname'
      exact absurd hname' hnm

/-- Witness for C6 at a concrete appearance document. -/
theorem claim_C6_witness :
    ∃ root' imgs, filter_appearance_members
      (XNode.elem "core:CityModel" ""
        [XNode.elem "app:appearanceMember" ""
          [XNode.elem "app:Appearance" ""
            [XNode.elem "app:surfaceDataMember" ""
              [XNode.elem "app:ParameterizedTexture" ""
                [XNode.elem "app:target" "uri=\"#B1\"" []]]]]]) {"B1"}
        = some (root', imgs) ∧
      ∀ t' ∈ root'.childrenOf, t'.nameOf = "app:appearanceMember" →
        ∀ app', only_node_child t' = some app' →
          ∀ m' ∈ app'.childrenOf, m'.nameOf = "app:surfaceDataMember" →
            ∃ m2', only_node_child m' = some m2' ∧
              ∃ c ∈ m2'.childrenOf, c.nameOf = "app:target" ∧
                target_kept {"B1"} c = true := by
  refine ⟨XNode.elem "core:CityModel" ""
      [XNode.elem "app:appearanceMember" ""
        [XNode.elem "app:Appearance" ""
          [XNode.elem "app:surfaceDataMember" ""
            [XNode.elem "app:ParameterizedTexture" ""
              [XNode.elem "app:target" "uri=\"#B1\"" []]]]]], ∅,
    by decide,
    claim_C6
      (XNode.elem "core:CityModel" ""
        [XNode.elem "app:appearanceMember" ""
          [XNode.elem "app:Appearance" ""
            [XNode.elem "app:surfaceDataMember" ""
              [XNode.elem "app:ParameterizedTexture" ""
                [XNode.elem "app:target" "uri=\"#B1\"" []]]]]]) {"B1"}
      (XNode.elem "core:CityModel" ""
        [XNode.elem "app:appearanceMember" ""
          [XNode.elem "app:Appearance" ""
            [XNode.elem "app:surfaceDataMember" ""
              [XNode.elem "app:ParameterizedTexture" ""
                [XNode.elem "app:target" "uri=\"#B1\"" []]]]]]) ∅
      (by decide) (by decide)⟩

/-- C10: every in-place mutation pass — round-1 filtering of the root's child
list, the Pruner's child-list rewrite, and round-2 removal of targets and
surfaceDataMembers — produces a child list that is an order-preserving
selection (a `filterMap`/`filter`) of the original list: children are only
deleted or rewritten in place, never reordered. -/
theorem claim_C10 :
    (∀ (ids : List String) (ts l : List XNode) (r : Finset String),
        round1_children ids ts = some (l, r) → l = ts.filterMap (round1_keep ids))
    ∧ (∀ (keep : List (List Nat)) (pos : List Nat) (i : Nat) (cs : List XNode),
        pruneChildren keep pos i cs = (cs.enumFrom i).filterMap (prune_step keep pos))
    ∧ (∀ (refs : Finset String) (cs l : List XNode) (b : Bool) (im : Finset String),
        scan_sdm_children refs cs = some (l, b, im) →
          l = cs.filterMap (sdm_child_step refs))
    ∧ (∀ (ms l : List XNode), filter_members ms = some l →
        l = ms.filter (fun m => (keep_member m).getD false)) := by
  refine ⟨?_, ?_, ?_, ?_⟩
  · intro ids ts l r h
    have hv := round1_children_some_valid ids ts _ h
    rw [round1_children_eq ids ts hv, Option.some_inj, Prod.ext_iff] at h
    exact h.1.symm
  · intro keep pos i cs
    exact pruneChildren_eq_filterMap keep pos cs i
  · intro refs cs l b im h
    have hv := scan_sdm_children_some_valid refs cs _ h
    rw [scan_sdm_children_eq refs cs hv, Option.some_inj, Prod.ext_iff,
      Prod.ext_iff] at h
    exact h.1.symm
  · intro ms l h
    have hv := filter_members_some ms l h
    rw [filter_members_eq ms hv, Option.some_inj] at h
    exact h.symm

/-- Witness for C10's conditional parts at concrete inputs. -/
theorem claim_C10_witness :
    ([XNode.elem "a" "" []] =
        ([XNode.elem "a" "" []] : List XNode).filterMap (round1_keep []))
    ∧ ([XNode.elem "a" "" []] =
        ([XNode.elem "a" "" []] : List XNode).filterMap (sdm_child_step ∅))
    ∧ (([] : List XNode) =
        List.filter (fun m => (keep_member m).getD false) ([] : List XNode)) :=
  ⟨claim_C10.1 [] [XNode.elem "a" "" []] [XNode.elem "a" "" []] ∅ (by decide),
   claim_C10.2.2.1 ∅ [XNode.elem "a" "" []] [XNode.elem "a" "" []] false ∅ (by decide),
   claim_C10.2.2.2 [] [] (by decide)⟩

/-! ## Parser support lemmas

Groundwork for the parser claims (C4, C8): how `splitAtChar`, `takeWhile`,
`dropWhile`, `trimL`, `rstripL`, `splitHeader` and `isPrefixOf` behave on the
shapes the serializer emits. -/

theorem splitAtChar_append (c : Char) :
    ∀ (pre : List Char), c ∉ pre → ∀ post,
      splitAtChar c (pre ++ c :: post) = some (pre, post) := by
  intro pre
  induction pre with
  | nil => intro _ post; simp [splitAtChar]
  | cons d ds ih =>
    intro h post
    have hd : d ≠ c := fun e => h (e ▸ List.mem_cons_self d ds)
    have h2 : c ∉ ds := fun m => h (List.mem_cons_of_mem _ m)
    simp [splitAtChar, hd, ih h2 post]

theorem takeWhile_append_not (p : Char → Bool) :
    ∀ (l : List Char), (∀ x ∈ l, p x = true) → ∀ (c : Char), p c = false → ∀ r,
      (l ++ c :: r).takeWhile p = l ∧ (l ++ c :: r).dropWhile p = c :: r := by
  intro l
  induction l with
  | nil => intro _ c hc r; simp [List.takeWhile_cons, List.dropWhile_cons, hc]
  | cons d ds ih =>
    intro h c hc r
    have hd : p d = true := h d (List.mem_cons_self d ds)
    obtain ⟨h3, h4⟩ := ih (fun x m => h x (List.mem_cons_of_mem _ m)) c hc r
    simp [List.takeWhile_cons, List.dropWhile_cons, hd, h3, h4]

theorem takeWhile_all (p : Char → Bool) :
    ∀ (l : List Char), (∀ x ∈ l, p x = true) →
      l.takeWhile p = l ∧ l.dropWhile p = [] := by
  intro l
  induction l with
  | nil => intro _; exact ⟨rfl, rfl⟩
  | cons d ds ih =>
    intro h
    have hd : p d = true := h d (List.mem_cons_self d ds)
    obtain ⟨h3, h4⟩ := ih (fun x m => h x (List.mem_cons_of_mem _ m))
    simp [List.takeWhile_cons, List.dropWhile_cons, hd, h3, h4]

theorem dropWhile_ws_cons_false {c : Char} {l : List Char}
    (h : c.isWhitespace = false) :
    (c :: l).dropWhile Char.isWhitespace = c :: l := by
  rw [List.dropWhile_cons, if_neg]
  simp [h]

theorem dropWhile_ws_cons_true {c : Char} {l : List Char}
    (h : c.isWhitespace = true) :
    (c :: l).dropWhile Char.isWhitespace = l.dropWhile Char.isWhitespace := by
  rw [List.dropWhile_cons, if_pos h]

theorem rstripL_append_ws {l : List Char} {c : Char} (h : c.isWhitespace = true) :
    rstripL (l ++ [c]) = rstripL l := by
  unfold rstripL
  rw [List.reverse_append]
  simp [dropWhile_ws_cons_true h]

theorem rstripL_concat_keep {l : List Char} {c : Char} (h : c.isWhitespace = false) :
    rstripL (l ++ [c]) = l ++ [c] := by
  unfold rstripL
  rw [List.reverse_append]
  simp only [List.reverse_cons, List.reverse_nil, List.nil_append,
    List.singleton_append]
  rw [dropWhile_ws_cons_false h]
  simp

theorem trimL_cons_ws {c : Char} {l : List Char} (h : c.isWhitespace = true) :
    trimL (c :: l) = trimL l := by
  unfold trimL
  rw [dropWhile_ws_cons_true h]

theorem trimL_eq_rstripL {l : List Char}
    (h : l.dropWhile Char.isWhitespace = l) : trimL l = rstripL l := by
  unfold trimL rstripL
  rw [h]

theorem trimL_eq_self_of_all {l : List Char}
    (h : ∀ x ∈ l, x.isWhitespace = false) : trimL l = l := by
  have h1 : l.dropWhile Char.isWhitespace = l := by
    cases l with
    | nil => rfl
    | cons c cs => exact dropWhile_ws_cons_false (h c (List.mem_cons_self c cs))
  rw [trimL_eq_rstripL h1]
  unfold rstripL
  have h2 : l.reverse.dropWhile Char.isWhitespace = l.reverse := by
    cases hr : l.reverse with
    | nil => rfl
    | cons c cs =>
      refine dropWhile_ws_cons_false (h c ?_)
      have : c ∈ l.reverse := by rw [hr]; exact List.mem_cons_self c cs
      simpa using this
  rw [h2, List.reverse_reverse]

theorem rstripL_length_le (l : List Char) : (rstripL l).length ≤ l.length := by
  unfold rstripL
  simpa using (List.dropWhile_suffix (l := l.reverse)
    (p := Char.isWhitespace)).sublist.length_le

theorem dropWhile_ws_length_le (l : List Char) :
    (l.dropWhile Char.isWhitespace).length ≤ l.length :=
  (List.dropWhile_suffix (l := l) (p := Char.isWhitespace)).sublist.length_le

theorem rstripL_self_getLast {l : List Char} (h : rstripL l = l) :
    ∀ c, l.getLast? = some c → c.isWhitespace = false := by
  intro c hc
  by_contra hw
  have hw' : c.isWhitespace = true := by
    cases hcw : c.isWhitespace with
    | false => exact absurd hcw hw
    | true => rfl
  have hne : l ≠ [] := by intro e; rw [e] at hc; exact Option.noConfusion hc
  have hg : l.getLast hne = c := by
    have h0 := List.getLast?_eq_getLast l hne
    rw [h0, Option.some_inj] at hc
    exact hc
  have hsplit : l.dropLast ++ [c] = l := by
    rw [← hg]
    exact List.dropLast_append_getLast hne
  have h2 : rstripL (l.dropLast ++ [c]) = rstripL l.dropLast := rstripL_append_ws hw'
  rw [hsplit] at h2
  have h3 : l.length ≤ l.dropLast.length := by
    calc l.length = (rstripL l).length := by rw [h]
    _ = (rstripL l.dropLast).length := by rw [h2]
    _ ≤ l.dropLast.length := rstripL_length_le _
  have h4 : l.dropLast.length = l.length - 1 := List.length_dropLast l
  have h5 : 0 < l.length := List.length_pos.mpr hne
  omega

theorem trimL_self_dropWhile {l : List Char} (h : trimL l = l) :
    l.dropWhile Char.isWhitespace = l := by
  have hsuf : l.dropWhile Char.isWhitespace <:+ l := List.dropWhile_suffix _
  refine List.IsSuffix.eq_of_length hsuf ?_
  have e1 : (trimL l).length = l.length := by rw [h]
  have h2 : (trimL l).length ≤ (l.dropWhile Char.isWhitespace).length := by
    unfold trimL
    simpa using (List.dropWhile_suffix
      (l := (l.dropWhile Char.isWhitespace).reverse)
      (p := Char.isWhitespace)).sublist.length_le
  have h3 := dropWhile_ws_length_le l
  omega

theorem trimL_self_rstripL {l : List Char} (h : trimL l = l) : rstripL l = l := by
  have h1 := trimL_self_dropWhile h
  rw [trimL_eq_rstripL h1] at h
  exact h

theorem isPrefixOf_append_spill :
    ∀ (pat l : List Char) (c : Char) (r : List Char),
      pat.isPrefixOf (l ++ c :: r) = true →
      pat.isPrefixOf l = true ∨ c ∈ pat := by
  intro pat
  induction pat with
  | nil => intro l c r _; left; simp
  | cons p ps ih =>
    intro l c r h
    cases l with
    | nil =>
      right
      simp only [List.nil_append, List.isPrefixOf, Bool.and_eq_true, beq_iff_eq] at h
      exact h.1 ▸ List.mem_cons_self p ps
    | cons x xs =>
      simp only [List.cons_append, List.isPrefixOf, Bool.and_eq_true, beq_iff_eq] at h
      rcases ih xs c r h.2 with h3 | h3
      · left
        simp [List.isPrefixOf, h.1, h3]
      · right
        exact List.mem_cons_of_mem _ h3

theorem isPrefixOf_append_right {pat l : List Char} (h : pat.isPrefixOf l = true)
    (r : List Char) : pat.isPrefixOf (l ++ r) = true := by
  have h1 : pat <+: l := List.isPrefixOf_iff_prefix.mp h
  exact List.isPrefixOf_iff_prefix.mpr (h1.trans (List.prefix_append l r))

theorem isNameChar_spec {c : Char} (h : isNameChar c = true) :
    c.isWhitespace = false ∧ c ≠ '/' ∧ c ≠ '>' := by
  unfold isNameChar at h
  simp only [Bool.and_eq_true, Bool.not_eq_true', decide_eq_true_eq] at h
  exact ⟨h.1.1, h.1.2, h.2⟩


theorem splitHeader_sound :
    ∀ (s pre post : List Char), splitHeader s = some (pre, post) →
      s = pre ++ '?' :: '>' :: post := by
  intro s
  induction s using splitHeader.induct with
  | case1 => intro pre post h; simp [splitHeader] at h
  | case2 rest =>
    intro pre post h
    rw [splitHeader.eq_2, Option.some_inj, Prod.mk.injEq] at h
    obtain ⟨rfl, rfl⟩ := h
    rfl
  | case3 c rest h1 pre0 post0 heq ih =>
    intro pre post h
    rw [splitHeader.eq_3 c rest h1, heq, Option.some_inj, Prod.mk.injEq] at h
    obtain ⟨rfl, rfl⟩ := h
    rw [ih pre0 post0 heq]
    rfl
  | case4 c rest h1 heq ih =>
    intro pre post h
    rw [splitHeader.eq_3 c rest h1, heq] at h
    exact Option.noConfusion h

theorem splitHeader_pre :
    ∀ (s pre post : List Char), splitHeader s = some (pre, post) →
      splitHeader pre = none := by
  intro s
  induction s using splitHeader.induct with
  | case1 => intro pre post h; simp [splitHeader] at h
  | case2 rest =>
    intro pre post h
    rw [splitHeader.eq_2, Option.some_inj, Prod.mk.injEq] at h
    obtain ⟨rfl, rfl⟩ := h
    rfl
  | case3 c rest h1 pre0 post0 heq ih =>
    intro pre post h
    rw [splitHeader.eq_3 c rest h1, heq, Option.some_inj, Prod.mk.injEq] at h
    obtain ⟨rfl, rfl⟩ := h
    have h2 : ∀ (r : List Char), c = '?' → pre0 = '>' :: r → False := by
      intro r hc hp
      exact h1 (r ++ '?' :: '>' :: post0) hc
        (by rw [splitHeader_sound rest pre0 post0 heq, hp]; rfl)
    rw [splitHeader.eq_3 c pre0 h2, ih pre0 post0 heq]
  | case4 c rest h1 heq ih =>
    intro pre post h
    rw [splitHeader.eq_3 c rest h1, heq] at h
    exact Option.noConfusion h

theorem splitHeader_append :
    ∀ (pre : List Char), splitHeader pre = none → ∀ (x : List Char),
      splitHeader (pre ++ '?' :: '>' :: x) = some (pre, x) := by
  intro pre
  induction pre using splitHeader.induct with
  | case1 => intro _ x; rfl
  | case2 rest => intro h _; rw [splitHeader.eq_2] at h; exact Option.noConfusion h
  | case3 c rest h1 pre0 post0 heq ih =>
    intro h x
    rw [splitHeader.eq_3 c rest h1, heq] at h
    exact Option.noConfusion h
  | case4 c rest h1 heq ih =>
    intro h x
    have h2 : ∀ (r : List Char), c = '?' → rest ++ '?' :: '>' :: x = '>' :: r → False := by
      intro r hc hp
      cases rest with
      | nil => simp at hp
      | cons d ds =>
        have hd : d = '>' := by
          have h3 := congrArg (fun l => l.head?) hp
          simpa using h3
        exact h1 ds hc (by rw [hd])
    rw [List.cons_append, splitHeader.eq_3 c (rest ++ '?' :: '>' :: x) h2, ih heq x]


/-! Evaluation of the parser on serialized shapes: one open tag followed by a
known remainder, a matching or mismatched close tag, and the preprocessing of
whitespace-free documents. -/

theorem nameOk_spec {l : List Char} (h : nameOk l = true) :
    l ≠ [] ∧ ∀ x ∈ l, isNameChar x = true := by
  unfold nameOk at h
  simp only [Bool.and_eq_true, Bool.not_eq_true', List.isEmpty_eq_false_iff_exists_mem,
    List.all_eq_true] at h
  obtain ⟨⟨x, hx⟩, h2⟩ := h
  exact ⟨List.ne_nil_of_mem hx, h2⟩

theorem parseTop_no_lt {body : List Char} (h : body.head? ≠ some '<')
    (fuel : Nat) : parseTop fuel body = .ok (none, body) := by
  cases body with
  | nil => rfl
  | cons c bs =>
    have hc : c ≠ '<' := by
      intro e
      exact h (by rw [e]; rfl)
    unfold parseTop
    split
    · next heq =>
      rw [List.cons.injEq] at heq
      exact absurd heq.1 hc
    · rfl

theorem parseTop_lt (body1 : List Char) (fuel : Nat) :
    parseTop fuel ('<' :: body1) =
      match parseElem fuel ('<' :: body1) with
      | .error e => .error e
      | .ok (n, r) => .ok (some n, r) := rfl

theorem xmlPreprocess_plain {l : List Char}
    (hall : ∀ x ∈ l, x.isWhitespace = false)
    (hhd : l.head? = some '<')
    (hpre : "<?xml".data.isPrefixOf l = false) :
    xmlPreprocess l = .ok ([], l) := by
  simp only [xmlPreprocess, trimL_eq_self_of_all hall, hhd]
  rw [if_neg (show ¬((some '<' : Option Char) = some '﻿') by decide)]
  have hpre2 : (['<', '?', 'x', 'm', 'l'] : List Char).isPrefixOf l = false := hpre
  rw [hpre2]
  simp [trimL_eq_self_of_all hall]

theorem parseElem_simple (nm : String) (hnm : nameOk nm.data = true)
    (REST : List Char) (f : Nat) :
    parseElem (f + 1) ('<' :: (nm.data ++ '>' :: REST)) =
      match parseLoop f nm.data REST with
      | .error e => .error e
      | .ok (children, rest') => .ok (.elem nm "" children, rest') := by
  obtain ⟨hne, hall⟩ := nameOk_spec hnm
  have hsplit : splitAtChar '>' (nm.data ++ '>' :: REST) = some (nm.data, REST) := by
    refine splitAtChar_append '>' nm.data ?_ REST
    intro hmem
    exact absurd rfl (isNameChar_spec (hall '>' hmem)).2.2
  have htake : nm.data.takeWhile isNameChar = nm.data := (takeWhile_all _ _ hall).1
  have hdrop : nm.data.dropWhile isNameChar = [] := (takeWhile_all _ _ hall).2
  rw [show f + 1 = Nat.succ f from rfl, parseElem.eq_2, hsplit]
  split
  · next heq => exact Option.noConfusion heq
  · next tag afterTag heq =>
    rw [Option.some_inj, Prod.mk.injEq] at heq
    obtain ⟨rfl, rfl⟩ := heq
    rw [htake, hdrop]
    dsimp only
    rw [if_neg hne, if_neg (show ¬((rstripL []).getLast? = some '/') by decide)]
    have htrim : trimL nm.data = nm.data :=
      trimL_eq_self_of_all (fun x hx => (isNameChar_spec (hall x hx)).1)
    rw [htrim]
    rfl

theorem parseLoop_close (nmd nm2 : List Char) (hno : '>' ∉ nm2) (R : List Char)
    (g : Nat) :
    parseLoop (g + 1) nmd ('<' :: '/' :: (nm2 ++ '>' :: R)) =
      if nm2 = nmd then .ok ([], R) else .error .mismatch := by
  rw [show g + 1 = Nat.succ g from rfl, parseLoop.eq_3, splitAtChar_append '>' nm2 hno R]

theorem noPrefix_open {nm : String}
    (hq : ¬ "?xml".data.isPrefixOf nm.data = true) (R : List Char) :
    "<?xml".data.isPrefixOf (('<' :: nm.data) ++ '>' :: R) = false := by
  cases hp : "<?xml".data.isPrefixOf (('<' :: nm.data) ++ '>' :: R) with
  | false => rfl
  | true =>
    exfalso
    rw [List.cons_append] at hp
    have hp2 : "?xml".data.isPrefixOf (nm.data ++ '>' :: R) = true := by
      simpa [List.isPrefixOf] using hp
    rcases isPrefixOf_append_spill "?xml".data nm.data '>' R hp2 with h3 | h3
    · exact hq h3
    · simp at h3

theorem open_nonws {nm : String} (hall2 : ∀ x ∈ nm.data, isNameChar x = true) :
    ∀ x ∈ ('<' :: nm.data), x.isWhitespace = false := by
  intro x hx
  rcases List.mem_cons.mp hx with rfl | hx2
  · decide
  · exact (isNameChar_spec (hall2 x hx2)).1

theorem open_elem_parse (nm : String) (hnm : nameOk nm.data = true)
    (hq : ¬ "?xml".data.isPrefixOf nm.data = true) :
    Xml_parse ('<' :: nm.data ++ ['>']) = .ok ([], some (.elem nm "" [])) := by
  obtain ⟨hne, hall⟩ := nameOk_spec hnm
  have hshape : '<' :: nm.data ++ ['>'] = ('<' :: nm.data) ++ '>' :: [] := rfl
  have hallw : ∀ x ∈ ('<' :: nm.data ++ ['>']), x.isWhitespace = false := by
    rw [hshape]
    intro x hx
    rcases List.mem_append.mp hx with hx2 | hx2
    · exact open_nonws hall x hx2
    · rw [List.mem_singleton] at hx2; subst hx2; decide
  have hhd : ('<' :: nm.data ++ ['>']).head? = some '<' := by
    rw [List.cons_append]; rfl
  have hprep := xmlPreprocess_plain hallw hhd (noPrefix_open hq [])
  unfold Xml_parse
  split
  · next e heq => rw [hprep] at heq; exact Except.noConfusion heq
  · next hdr body heq =>
    rw [hprep, Except.ok.injEq, Prod.mk.injEq] at heq
    obtain ⟨rfl, rfl⟩ := heq
    rw [List.cons_append]
    rw [parseTop_lt]
    have hg : ('<' :: (nm.data ++ ['>'])).length = (nm.data.length + 1) + 1 := by
      simp
    rw [hg]
    rw [parseElem_simple nm hnm [] (nm.data.length + 1 + 1)]
    rw [show nm.data.length + 1 + 1 = Nat.succ (nm.data.length + 1) from rfl,
      parseLoop.eq_2]

theorem mismatch_parse (nm nm2 : String) (hnm : nameOk nm.data = true)
    (hnm2 : nameOk nm2.data = true) (hne : nm ≠ nm2)
    (hq : ¬ "?xml".data.isPrefixOf nm.data = true) :
    Xml_parse (('<' :: nm.data) ++ ('>' :: '<' :: '/' :: (nm2.data ++ ['>']))) =
      .error .mismatch := by
  obtain ⟨hne1, hall⟩ := nameOk_spec hnm
  obtain ⟨hne2, hall2⟩ := nameOk_spec hnm2
  have hallw : ∀ x ∈ (('<' :: nm.data) ++ ('>' :: '<' :: '/' :: (nm2.data ++ ['>']))),
      x.isWhitespace = false := by
    intro x hx
    rcases List.mem_append.mp hx with hx2 | hx2
    · exact open_nonws hall x hx2
    rcases List.mem_cons.mp hx2 with rfl | hx3
    · decide
    rcases List.mem_cons.mp hx3 with rfl | hx4
    · decide
    rcases List.mem_cons.mp hx4 with rfl | hx5
    · decide
    rcases List.mem_append.mp hx5 with hx6 | hx6
    · exact (isNameChar_spec (hall2 x hx6)).1
    · rw [List.mem_singleton] at hx6; subst hx6; decide
  have hhd : (('<' :: nm.data) ++ ('>' :: '<' :: '/' :: (nm2.data ++ ['>']))).head? =
      some '<' := by
    rw [List.cons_append]; rfl
  have hprep := xmlPreprocess_plain hallw hhd
    (noPrefix_open hq ('<' :: '/' :: (nm2.data ++ ['>'])))
  unfold Xml_parse
  split
  · next e heq => rw [hprep] at heq; exact Except.noConfusion heq
  · next hdr body heq =>
    rw [hprep, Except.ok.injEq, Prod.mk.injEq] at heq
    obtain ⟨rfl, rfl⟩ := heq
    rw [List.cons_append, parseTop_lt]
    have hg : ('<' :: (nm.data ++ ('>' :: '<' :: '/' :: (nm2.data ++ ['>'])))).length =
        (nm.data.length + nm2.data.length + 4) + 1 := by
      simp
      omega
    rw [hg, parseElem_simple nm hnm ('<' :: '/' :: (nm2.data ++ ['>']))
      (nm.data.length + nm2.data.length + 4 + 1)]
    have hno : '>' ∉ nm2.data := by
      intro hmem
      exact absurd rfl (isNameChar_spec (hall2 '>' hmem)).2.2
    rw [parseLoop_close nm.data nm2.data hno []]
    rw [if_neg (show ¬(nm2.data = nm.data) from fun h => hne (String.ext h).symm)]

/-- C8 counterexample: the claim says parsing fails with a ParseError when the
content after the optional BOM/header does not start with `<`, or when the
input ends while an element is still open.  Both are false: `abc` parses
successfully with no root element, and `<a>` parses successfully to the
implicitly-closed element `a`. -/
theorem claim_C8_counterexample :
    ("abc".data.head? ≠ some '<' ∧ Xml_parse "abc".data = .ok ([], none))
    ∧ Xml_parse "<a>".data = .ok ([], some (XNode.elem "a" "" [])) :=
  ⟨⟨by decide, rfl⟩, rfl⟩

/-- C8 (amended): content not starting with `<` is not an error — the parser
returns the header with *no* root element; a closing tag whose name differs
from the open tag's name does abort with the mismatch error (the modelled
`AssertionError`); and input ending while an element is still open is not an
error — the element is implicitly closed, as witnessed on a whole document
`<nm>` yielding the root element `nm` with no attributes and no children. -/
theorem claim_C8_amended :
    (∀ (s hdr body : List Char), xmlPreprocess s = .ok (hdr, body) →
        body.head? ≠ some '<' → Xml_parse s = .ok (hdr, none))
    ∧ (∀ nm nm2 : String, nameOk nm.data = true → nameOk nm2.data = true →
        nm ≠ nm2 → ¬ "?xml".data.isPrefixOf nm.data = true →
        Xml_parse (('<' :: nm.data) ++ ('>' :: '<' :: '/' :: (nm2.data ++ ['>']))) =
          .error .mismatch)
    ∧ (∀ nm : String, nameOk nm.data = true →
        ¬ "?xml".data.isPrefixOf nm.data = true →
        Xml_parse ('<' :: nm.data ++ ['>']) = .ok ([], some (.elem nm "" []))) := by
  refine ⟨?_, mismatch_parse, open_elem_parse⟩
  intro s hdr body hpp hb
  unfold Xml_parse
  split
  · next e heq => rw [hpp] at heq; exact Except.noConfusion heq
  · next hdr2 body2 heq =>
    rw [hpp, Except.ok.injEq, Prod.mk.injEq] at heq
    obtain ⟨rfl, rfl⟩ := heq
    rw [parseTop_no_lt hb]

/-- Witness for C8's amended statement at concrete documents. -/
theorem claim_C8_amended_witness :
    Xml_parse "abc".data = .ok ([], none)
    ∧ Xml_parse (('<' :: "a".data) ++ ('>' :: '<' :: '/' :: ("b".data ++ ['>']))) =
        .error .mismatch
    ∧ Xml_parse ('<' :: "a".data ++ ['>']) = .ok ([], some (XNode.elem "a" "" [])) :=
  ⟨claim_C8_amended.1 "abc".data [] "abc".data rfl (by decide),
   claim_C8_amended.2.1 "a" "b" (by decide) (by decide) (by decide) (by decide),
   claim_C8_amended.2.2 "a" (by decide) (by decide)⟩


/-! Serializer shape lemmas and canonicity extraction, groundwork for the
round-trip claim. -/

theorem build_tag_eq (nm a : String) :
    build_tag nm a = ('<' :: nm.data) ++ attrPart a ++ ['>'] := by
  unfold build_tag attrPart
  by_cases h : a = ""
  · simp [h]
  · simp [h]

theorem buildL_elem_eq (nm a : String) (cs : List XNode) :
    buildL (.elem nm a cs) =
      (build_tag nm a ++ sepOf cs ++ buildChildren cs ++
        ('<' :: '/' :: nm.data ++ ['>'])) ++ ['\n'] := by
  unfold sepOf
  rw [buildL]
  by_cases h : cs.all (fun c => !c.isElem)
  · simp [h]
  · simp [h]

theorem buildL_dropLast (nm a : String) (cs : List XNode) :
    (buildL (.elem nm a cs)).dropLast =
      build_tag nm a ++ sepOf cs ++ buildChildren cs ++
        ('<' :: '/' :: nm.data ++ ['>']) := by
  rw [buildL_elem_eq, List.dropLast_concat]

theorem sepOf_cases (cs : List XNode) : sepOf cs = [] ∨ sepOf cs = ['\n'] := by
  unfold sepOf
  by_cases h : cs.all (fun c => !c.isElem)
  · left; simp [h]
  · right; simp [h]

theorem canonicalB_elem {nm a : String} {cs : List XNode}
    (h : canonicalB (.elem nm a cs) = true) :
    nameOk nm.data = true ∧ attrOk a.data = true ∧ noAdjText cs = true ∧
      canonList cs = true := by
  rw [canonicalB] at h
  simp only [Bool.and_eq_true] at h
  exact ⟨h.1.1.1, h.1.1.2, h.1.2, h.2⟩

theorem canonList_cons {c : XNode} {cs : List XNode}
    (h : canonList (c :: cs) = true) :
    canonicalB c = true ∧ canonList cs = true := by
  rw [canonList] at h
  simpa using h

theorem noAdjText_tail {c : XNode} {cs : List XNode}
    (h : noAdjText (c :: cs) = true) : noAdjText cs = true := by
  cases cs with
  | nil => rfl
  | cons b bs =>
    rw [noAdjText] at h
    exact ((Bool.and_eq_true _ _).mp h).2

theorem noAdjText_text_cons {s : String} {b : XNode} {bs : List XNode}
    (h : noAdjText (.text s :: b :: bs) = true) : b.isElem = true := by
  rw [noAdjText] at h
  simp only [Bool.and_eq_true, Bool.not_eq_true', Bool.and_eq_false_iff] at h
  rcases h.1 with h2 | h2
  · exact absurd h2 (by simp [XNode.isElem])
  · simpa using h2

theorem attrOk_spec {l : List Char} (h : attrOk l = true) :
    (∀ x ∈ l, ¬ x = '>') ∧ trimL l = l ∧ l.getLast? ≠ some '/' := by
  unfold attrOk at h
  simp only [Bool.and_eq_true, List.all_eq_true, beq_iff_eq, decide_eq_true_eq,
    ne_eq, decide_not, Bool.not_eq_true'] at h
  refine ⟨fun x hx => by simpa using h.1.1 x hx, h.1.2, ?_⟩
  have h2 := h.2
  simpa using h2

theorem textOk_spec {s : String} (h : textOk s = true) :
    s.data ≠ [] ∧ trimL s.data = s.data ∧ ∀ x ∈ s.data, ¬ x = '<' := by
  unfold textOk at h
  simp only [Bool.and_eq_true, List.all_eq_true, beq_iff_eq, decide_eq_true_eq,
    Bool.not_eq_true', List.isEmpty_eq_false_iff_exists_mem] at h
  obtain ⟨⟨⟨x, hx⟩, htrim⟩, hall⟩ := h
  exact ⟨List.ne_nil_of_mem hx, htrim, hall⟩

theorem tag_scan (nm a : String) (hall : ∀ x ∈ nm.data, isNameChar x = true) :
    (nm.data ++ attrPart a).takeWhile isNameChar = nm.data ∧
      (nm.data ++ attrPart a).dropWhile isNameChar = attrPart a := by
  unfold attrPart
  by_cases h : a = ""
  · simp only [h, if_pos]
    simpa using takeWhile_all isNameChar nm.data hall
  · rw [if_neg h]
    exact takeWhile_append_not isNameChar nm.data hall ' ' (by decide) a.data

theorem attrPart_no_gt (a : String) (ha : attrOk a.data = true) :
    '>' ∉ (attrPart a) := by
  unfold attrPart
  by_cases h : a = ""
  · simp [h]
  · rw [if_neg h]
    intro hmem
    rcases List.mem_cons.mp hmem with h2 | h2
    · exact absurd h2.symm (by decide)
    · exact ((attrOk_spec ha).1 '>' h2) rfl

theorem attrPart_rstrip (a : String) (ha : attrOk a.data = true) :
    rstripL (attrPart a) = attrPart a := by
  unfold attrPart
  by_cases h : a = ""
  · simp [h]; rfl
  · rw [if_neg h]
    have hd : a.data ≠ [] := by
      intro e
      apply h
      cases a with
      | mk l =>
        have e2 : l = [] := e
        subst e2
        rfl
    obtain ⟨c, hc⟩ : ∃ c, a.data.getLast? = some c := by
      cases hgl : a.data.getLast? with
      | none => exact absurd (List.getLast?_eq_none_iff.mp hgl) hd
      | some c => exact ⟨c, rfl⟩
    have hcw : c.isWhitespace = false :=
      rstripL_self_getLast (trimL_self_rstripL (attrOk_spec ha).2.1) c hc
    have hsplit : (' ' :: a.data.dropLast) ++ [c] = ' ' :: a.data := by
      have hg : a.data.getLast hd = c := by
        have h0 := List.getLast?_eq_getLast a.data hd
        rw [h0, Option.some_inj] at hc
        exact hc
      rw [List.cons_append, ← hg, List.dropLast_append_getLast hd]
    rw [← hsplit, rstripL_concat_keep hcw]

theorem attrPart_getLast (a : String) (ha : attrOk a.data = true) :
    (attrPart a).getLast? ≠ some '/' := by
  unfold attrPart
  by_cases h : a = ""
  · simp [h]
  · rw [if_neg h]
    have hd : a.data ≠ [] := by
      intro e
      apply h
      cases a with
      | mk l =>
        have e2 : l = [] := e
        subst e2
        rfl
    cases hdt : a.data with
    | nil => exact absurd hdt hd
    | cons d ds =>
      rw [List.getLast?_cons_cons]
      rw [hdt] at ha
      exact (attrOk_spec ha).2.2

theorem attrPart_trim (a : String) (ha : attrOk a.data = true) :
    trimL (attrPart a) = a.data := by
  unfold attrPart
  by_cases h : a = ""
  · subst h
    rfl
  · rw [if_neg h, trimL_cons_ws (by decide), (attrOk_spec ha).2.1]


theorem parseElem_build_tag (nm a : String) (hnm : nameOk nm.data = true)
    (ha : attrOk a.data = true) (REST : List Char) (f : Nat) :
    parseElem (f + 1) (build_tag nm a ++ REST) =
      match parseLoop f nm.data REST with
      | .error e => .error e
      | .ok (children, rest') => .ok (.elem nm a children, rest') := by
  obtain ⟨hne, hall⟩ := nameOk_spec hnm
  have hshape : build_tag nm a ++ REST =
      '<' :: ((nm.data ++ attrPart a) ++ '>' :: REST) := by
    rw [build_tag_eq]
    simp [List.append_assoc, List.cons_append]
  have hno : '>' ∉ nm.data ++ attrPart a := by
    intro hmem
    rcases List.mem_append.mp hmem with h2 | h2
    · exact absurd rfl (isNameChar_spec (hall '>' h2)).2.2
    · exact attrPart_no_gt a ha h2
  have hsplit : splitAtChar '>' ((nm.data ++ attrPart a) ++ '>' :: REST) =
      some (nm.data ++ attrPart a, REST) := splitAtChar_append '>' _ hno REST
  obtain ⟨htake, hdrop⟩ := tag_scan nm a hall
  rw [hshape, show f + 1 = Nat.succ f from rfl, parseElem.eq_2, hsplit]
  split
  · next heq => exact Option.noConfusion heq
  · next tag afterTag heq =>
    rw [Option.some_inj, Prod.mk.injEq] at heq
    obtain ⟨rfl, rfl⟩ := heq
    rw [htake, hdrop]
    dsimp only
    rw [if_neg hne, attrPart_rstrip a ha, if_neg (attrPart_getLast a ha)]
    have htrim : trimL nm.data = nm.data :=
      trimL_eq_self_of_all (fun x hx => (isNameChar_spec (hall x hx)).1)
    rw [htrim, attrPart_trim a ha]


theorem parseLoop_skip_nl (nmd X : List Char) (g : Nat) :
    parseLoop (g + 1) nmd ('\n' :: '<' :: X) =
      match parseLoop g nmd ('<' :: X) with
      | .error e => .error e
      | .ok (children, rest') => .ok (children, rest') := by
  rw [show g + 1 = Nat.succ g from rfl,
    parseLoop.eq_5 nmd g '\n' ('<' :: X) (fun _ e _ => absurd e (by decide))
      (fun e => absurd e (by decide))]
  rw [show splitAtChar '<' ('\n' :: '<' :: X) = some (['\n'], X) from rfl]
  split
  · next heq => exact Option.noConfusion heq
  · next txt rest heq =>
    rw [Option.some_inj, Prod.mk.injEq] at heq
    obtain ⟨rfl, rfl⟩ := heq
    rfl

theorem buildL_elem_split (nm2 a2 : String) (gs2 : List XNode) :
    buildL (.elem nm2 a2 gs2) = (buildL (.elem nm2 a2 gs2)).dropLast ++ ['\n'] := by
  rw [buildL_elem_eq, List.dropLast_concat]

theorem buildL_dropLast_head (nm2 a2 : String) (gs2 : List XNode) :
    ∃ W, (buildL (.elem nm2 a2 gs2)).dropLast = ('<' :: nm2.data) ++ W := by
  refine ⟨attrPart a2 ++ '>' :: (sepOf gs2 ++ (buildChildren gs2 ++
    '<' :: '/' :: (nm2.data ++ ['>']))), ?_⟩
  rw [buildL_dropLast, build_tag_eq]
  simp [List.append_assoc]

theorem buildL_elem_head (nm2 a2 : String) (gs2 : List XNode) :
    ∃ Z, buildL (.elem nm2 a2 gs2) = '<' :: Z := by
  obtain ⟨W, hW⟩ := buildL_dropLast_head nm2 a2 gs2
  refine ⟨nm2.data ++ W ++ ['\n'], ?_⟩
  rw [buildL_elem_split nm2 a2 gs2, hW]
  simp [List.append_assoc]

theorem children_close_head (cs' : List XNode)
    (hok : ∀ b bs, cs' = b :: bs → b.isElem = true) (X0 : List Char) :
    ∃ TAIL, buildChildren cs' ++ ('<' :: X0) = '<' :: TAIL := by
  cases cs' with
  | nil => exact ⟨X0, by simp [buildChildren]⟩
  | cons b bs =>
    have hb : b.isElem = true := hok b bs rfl
    cases b with
    | text s => exact absurd hb (by simp [XNode.isElem])
    | elem nmb ab gsb =>
      obtain ⟨Z, hZ⟩ := buildL_elem_head nmb ab gsb
      refine ⟨Z ++ (buildChildren bs ++ ('<' :: X0)), ?_⟩
      rw [show buildChildren (XNode.elem nmb ab gsb :: bs) =
        buildL (.elem nmb ab gsb) ++ buildChildren bs from rfl, hZ]
      simp [List.append_assoc]


/-! The parser inverts the serializer: `parseElem` applied to the serialized
form of a canonical element consumes exactly that element, and `parseLoop`
re-collects a serialized child list up to the matching close tag.  The `sep`
parameter carries the newline `Node.build` may emit before a child block. -/

mutual

theorem parseElem_build : ∀ (t : XNode), canonicalB t = true → t.isElem = true →
    ∀ (REST : List Char) (fuel : Nat), parseCost t ≤ fuel →
      parseElem fuel ((buildL t).dropLast ++ REST) = .ok (t, REST)
  | .text s => by
    intro _ hel
    exact absurd hel (by simp [XNode.isElem])
  | .elem nm a cs => by
    intro hc _ REST fuel hfuel
    obtain ⟨hnm, ha, hadj, hcl⟩ := canonicalB_elem hc
    have hfuel2 : 2 + loopCost cs ≤ fuel := by
      simpa [parseCost] using hfuel
    obtain ⟨f, rfl⟩ : ∃ f, fuel = f + 1 := ⟨fuel - 1, by omega⟩
    rw [buildL_dropLast]
    have hinput : (build_tag nm a ++ sepOf cs ++ buildChildren cs ++
        ('<' :: '/' :: nm.data ++ ['>'])) ++ REST =
        build_tag nm a ++ (sepOf cs ++ (buildChildren cs ++
          ('<' :: '/' :: (nm.data ++ '>' :: REST)))) := by
      simp [List.append_assoc]
    rw [hinput, parseElem_build_tag nm a hnm ha _ f]
    rw [parseLoop_build cs hcl hadj nm hnm (sepOf cs) (sepOf_cases cs) REST f
      (by omega)]

theorem parseLoop_build : ∀ (cs : List XNode), canonList cs = true →
    noAdjText cs = true → ∀ (nm : String), nameOk nm.data = true →
    ∀ (sep : List Char), (sep = [] ∨ sep = ['\n']) →
    ∀ (REST : List Char) (fuel : Nat), loopCost cs ≤ fuel →
      parseLoop fuel nm.data
        (sep ++ (buildChildren cs ++ ('<' :: '/' :: (nm.data ++ '>' :: REST)))) =
        .ok (cs, REST)
  | [] => by
    intro _ _ nm hnm sep hsep REST fuel hfuel
    have hno : '>' ∉ nm.data := fun hm =>
      absurd rfl (isNameChar_spec ((nameOk_spec hnm).2 '>' hm)).2.2
    have hfuel2 : 2 ≤ fuel := by simpa [loopCost] using hfuel
    have hbase : ∀ g, parseLoop (g + 1) nm.data
        ('<' :: '/' :: (nm.data ++ '>' :: REST)) = .ok ([], REST) := by
      intro g
      rw [parseLoop_close nm.data nm.data hno REST g, if_pos rfl]
    rw [show buildChildren [] = ([] : List Char) from rfl, List.nil_append]
    rcases hsep with rfl | rfl
    · obtain ⟨g, rfl⟩ : ∃ g, fuel = g + 1 := ⟨fuel - 1, by omega⟩
      rw [List.nil_append]
      exact hbase g
    · obtain ⟨g, rfl⟩ : ∃ g, fuel = (g + 1) + 1 := ⟨fuel - 2, by omega⟩
      rw [List.singleton_append,
        parseLoop_skip_nl nm.data ('/' :: (nm.data ++ '>' :: REST)) (g + 1),
        hbase g]
  | .text s :: cs' => by
    intro hcl hadj nm hnm sep hsep REST fuel hfuel
    obtain ⟨hcc, hcl'⟩ := canonList_cons hcl
    have hadj' := noAdjText_tail hadj
    have hts : textOk s = true := by rwa [canonicalB] at hcc
    obtain ⟨hsl, hstrim, hslt⟩ := textOk_spec hts
    have hok : ∀ b bs, cs' = b :: bs → b.isElem = true := by
      intro b bs e
      subst e
      exact noAdjText_text_cons hadj
    obtain ⟨TAIL, hTAIL⟩ := children_close_head cs' hok ('/' :: (nm.data ++ '>' :: REST))
    have hfuel2 : 1 + loopCost cs' ≤ fuel := by simpa [loopCost] using hfuel
    obtain ⟨g, rfl⟩ : ∃ g, fuel = g + 1 := ⟨fuel - 1, by omega⟩
    have hrec := parseLoop_build cs' hcl' hadj' nm hnm [] (Or.inl rfl) REST g (by omega)
    rw [List.nil_append] at hrec
    have hchin : buildChildren (XNode.text s :: cs') ++
        ('<' :: '/' :: (nm.data ++ '>' :: REST)) = s.data ++ ('<' :: TAIL) := by
      rw [show buildChildren (XNode.text s :: cs') = s.data ++ buildChildren cs' from rfl,
        List.append_assoc, hTAIL]
    rcases hsep with rfl | rfl
    · rw [List.nil_append, hchin]
      obtain ⟨c0, l0, hsd⟩ : ∃ c0 l0, s.data = c0 :: l0 := by
        cases hx : s.data with
        | nil => exact absurd hx hsl
        | cons c0 l0 => exact ⟨c0, l0, rfl⟩
      have hc0 : ¬ c0 = '<' := by
        intro e
        exact hslt c0 (by rw [hsd]; exact List.mem_cons_self c0 l0) e
      rw [hsd, List.cons_append, show g + 1 = Nat.succ g from rfl,
        parseLoop.eq_5 nm.data g c0 (l0 ++ '<' :: TAIL)
          (fun _ e _ => hc0 e) (fun e => hc0 e)]
      have hnomem : '<' ∉ c0 :: l0 := by
        rw [← hsd]
        intro hm
        exact hslt '<' hm rfl
      have hsp : splitAtChar '<' (c0 :: (l0 ++ '<' :: TAIL)) = some (c0 :: l0, TAIL) := by
        have h0 := splitAtChar_append '<' (c0 :: l0) hnomem TAIL
        rwa [List.cons_append] at h0
      rw [hsp]
      split
      · next heq => exact Option.noConfusion heq
      · next txt rest heq =>
        rw [Option.some_inj, Prod.mk.injEq] at heq
        obtain ⟨rfl, rfl⟩ := heq
        rw [← hTAIL, hrec]
        split
        · next heq2 => exact Except.noConfusion heq2
        · next children rest' heq2 =>
          rw [Except.ok.injEq, Prod.mk.injEq] at heq2
          obtain ⟨rfl, rfl⟩ := heq2
          rw [← hsd, hstrim, if_neg hsl]
    · rw [hchin, List.singleton_append]
      rw [show g + 1 = Nat.succ g from rfl,
        parseLoop.eq_5 nm.data g '\n' (s.data ++ '<' :: TAIL)
          (fun _ e _ => absurd e (by decide)) (fun e => absurd e (by decide))]
      have hnomem : '<' ∉ '\n' :: s.data := by
        intro hm
        rcases List.mem_cons.mp hm with e | hm2
        · exact absurd e (by decide)
        · exact hslt '<' hm2 rfl
      have hsp : splitAtChar '<' ('\n' :: (s.data ++ '<' :: TAIL)) =
          some ('\n' :: s.data, TAIL) := by
        have h0 := splitAtChar_append '<' ('\n' :: s.data) hnomem TAIL
        rwa [List.cons_append] at h0
      rw [hsp]
      split
      · next heq => exact Option.noConfusion heq
      · next txt rest heq =>
        rw [Option.some_inj, Prod.mk.injEq] at heq
        obtain ⟨rfl, rfl⟩ := heq
        rw [← hTAIL, hrec]
        split
        · next heq2 => exact Except.noConfusion heq2
        · next children rest' heq2 =>
          rw [Except.ok.injEq, Prod.mk.injEq] at heq2
          obtain ⟨rfl, rfl⟩ := heq2
          rw [trimL_cons_ws (by decide), hstrim, if_neg hsl]
  | .elem nm2 a2 gs2 :: cs' => by
    intro hcl hadj nm hnm sep hsep REST fuel hfuel
    obtain ⟨hcc, hcl'⟩ := canonList_cons hcl
    have hadj' := noAdjText_tail hadj
    have hfuel2 : 2 + parseCost (.elem nm2 a2 gs2) + loopCost cs' ≤ fuel := by
      have h0 : loopCost (XNode.elem nm2 a2 gs2 :: cs') =
          2 + parseCost (.elem nm2 a2 gs2) + loopCost cs' := rfl
      rw [h0] at hfuel
      exact hfuel
    obtain ⟨h2, t2, hd2, hslash⟩ : ∃ h2 t2, nm2.data = h2 :: t2 ∧ ¬ h2 = '/' := by
      obtain ⟨hne2, hall2⟩ := nameOk_spec (canonicalB_elem hcc).1
      cases hx : nm2.data with
      | nil => exact absurd hx hne2
      | cons h2 t2 =>
        refine ⟨h2, t2, rfl, ?_⟩
        exact (isNameChar_spec (hall2 h2 (by rw [hx]; exact List.mem_cons_self h2 t2))).2.1
    obtain ⟨W, hW⟩ := buildL_dropLast_head nm2 a2 gs2
    have h0 : ∀ g, 1 + parseCost (.elem nm2 a2 gs2) + loopCost cs' ≤ g + 1 →
        parseLoop (g + 1) nm.data (buildChildren (XNode.elem nm2 a2 gs2 :: cs') ++
          ('<' :: '/' :: (nm.data ++ '>' :: REST))) =
          .ok (XNode.elem nm2 a2 gs2 :: cs', REST) := by
      intro g hg
      have hrec := parseLoop_build cs' hcl' hadj' nm hnm ['\n'] (Or.inr rfl) REST g
        (by omega)
      rw [List.singleton_append] at hrec
      have hin : buildChildren (XNode.elem nm2 a2 gs2 :: cs') ++
          ('<' :: '/' :: (nm.data ++ '>' :: REST)) =
          '<' :: (h2 :: (t2 ++ (W ++ '\n' ::
            (buildChildren cs' ++ ('<' :: '/' :: (nm.data ++ '>' :: REST)))))) := by
        rw [show buildChildren (XNode.elem nm2 a2 gs2 :: cs') =
            buildL (.elem nm2 a2 gs2) ++ buildChildren cs' from rfl,
          buildL_elem_split nm2 a2 gs2, hW, hd2]
        simp [List.append_assoc]
      have hin2 : ('<' : Char) :: (h2 :: (t2 ++ (W ++ '\n' ::
          (buildChildren cs' ++ ('<' :: '/' :: (nm.data ++ '>' :: REST)))))) =
          (buildL (.elem nm2 a2 gs2)).dropLast ++ ('\n' ::
            (buildChildren cs' ++ ('<' :: '/' :: (nm.data ++ '>' :: REST)))) := by
        rw [hW, hd2]
        simp [List.append_assoc]
      rw [hin, show g + 1 = Nat.succ g from rfl,
        parseLoop.eq_4 nm.data g _ (by
          intro cs2 e
          rw [List.cons.injEq] at e
          exact hslash e.1)]
      rw [hin2, parseElem_build (.elem nm2 a2 gs2) hcc rfl _ g (by omega)]
      split
      · next heq => exact Except.noConfusion heq
      · next child rest heq =>
        rw [Except.ok.injEq, Prod.mk.injEq] at heq
        obtain ⟨rfl, rfl⟩ := heq
        rw [hrec]
    rcases hsep with rfl | rfl
    · rw [List.nil_append]
      obtain ⟨g, rfl⟩ : ∃ g, fuel = g + 1 := ⟨fuel - 1, by omega⟩
      exact h0 g (by omega)
    · obtain ⟨g, rfl⟩ : ∃ g, fuel = (g + 1) + 1 := ⟨fuel - 2, by omega⟩
      have hok : ∀ b bs, (XNode.elem nm2 a2 gs2 :: cs') = b :: bs →
          b.isElem = true := by
        intro b bs e
        rw [List.cons.injEq] at e
        rw [← e.1]
        rfl
      obtain ⟨T2, hT2⟩ := children_close_head (XNode.elem nm2 a2 gs2 :: cs') hok
        ('/' :: (nm.data ++ '>' :: REST))
      rw [List.singleton_append, hT2, parseLoop_skip_nl nm.data T2 (g + 1), ← hT2,
        h0 g (by omega)]

end


theorem loopCost_le (cs : List XNode)
    (hmem : ∀ c ∈ cs, canonicalB c = true → c.isElem = true →
      parseCost c + 2 ≤ (buildL c).length)
    (hcl : canonList cs = true) :
    loopCost cs ≤ (buildChildren cs).length + 2 := by
  induction cs with
  | nil => simp [loopCost, buildChildren]
  | cons c cs ih =>
    obtain ⟨hcc, hcl'⟩ := canonList_cons hcl
    have ih2 := ih (fun x hx => hmem x (List.mem_cons_of_mem _ hx)) hcl'
    have hlen : (buildChildren (c :: cs)).length =
        (buildL c).length + (buildChildren cs).length := by
      rw [show buildChildren (c :: cs) = buildL c ++ buildChildren cs from rfl,
        List.length_append]
    cases c with
    | text s =>
      have hts : textOk s = true := by rwa [canonicalB] at hcc
      have hpos : 1 ≤ (buildL (.text s)).length := by
        rw [show buildL (.text s) = s.data from rfl]
        have h1 := (textOk_spec hts).1
        cases hx : s.data with
        | nil => exact absurd hx h1
        | cons a l => simp
      have hc : loopCost (XNode.text s :: cs) = 1 + loopCost cs := rfl
      omega
    | elem nm2 a2 gs2 =>
      have he := hmem _ (List.mem_cons_self _ _) hcc rfl
      have hc : loopCost (XNode.elem nm2 a2 gs2 :: cs) =
          2 + parseCost (.elem nm2 a2 gs2) + loopCost cs := rfl
      omega

theorem parseCost_le : ∀ (t : XNode), canonicalB t = true → t.isElem = true →
    parseCost t + 2 ≤ (buildL t).length := by
  intro t
  induction t using XNode.strongInd with
  | htext s => intro _ hel; exact absurd hel (by simp [XNode.isElem])
  | helem nm a cs ih =>
    intro hc _
    obtain ⟨hnm, ha, hadj, hcl⟩ := canonicalB_elem hc
    have hloop := loopCost_le cs (fun c hc2 => ih c hc2) hcl
    have hcost : parseCost (.elem nm a cs) = 2 + loopCost cs := rfl
    have hlen : (buildL (.elem nm a cs)).length =
        (build_tag nm a).length + (sepOf cs).length + (buildChildren cs).length +
          (nm.data.length + 4) := by
      rw [buildL_elem_eq]
      simp [List.length_append]
      omega
    have htag : 2 ≤ (build_tag nm a).length := by
      rw [build_tag_eq]
      simp [List.length_append]
      omega
    omega


theorem parseElem_isElem : ∀ (fuel : Nat) (cs : List Char) (n : XNode) (r : List Char),
    parseElem fuel cs = .ok (n, r) → n.isElem = true := by
  intro fuel cs n r h
  cases fuel with
  | zero => rw [parseElem.eq_1] at h; exact Except.noConfusion h
  | succ f =>
    cases cs with
    | nil =>
      rw [parseElem.eq_3 [] f (fun _ e => List.noConfusion e)] at h
      exact Except.noConfusion h
    | cons c cs1 =>
      by_cases hc : c = '<'
      · subst hc
        rw [parseElem.eq_2] at h
        split at h
        · exact Except.noConfusion h
        · next tag afterTag heq =>
          dsimp only at h
          split at h
          · exact Except.noConfusion h
          · split at h
            · rw [Except.ok.injEq, Prod.mk.injEq] at h
              obtain ⟨h1, _⟩ := h
              rw [← h1]
              rfl
            · split at h
              · exact Except.noConfusion h
              · rw [Except.ok.injEq, Prod.mk.injEq] at h
                obtain ⟨h1, _⟩ := h
                rw [← h1]
                rfl
      · rw [parseElem.eq_3 (c :: cs1) f (by
          intro cs2 e
          rw [List.cons.injEq] at e
          exact hc e.1)] at h
        exact Except.noConfusion h

theorem Xml_parse_inv {d hdr : List Char} {r : Option XNode}
    (h : Xml_parse d = .ok (hdr, r)) :
    ∃ body rest, xmlPreprocess d = .ok (hdr, body) ∧
      parseTop (body.length + 1) body = .ok (r, rest) := by
  unfold Xml_parse at h
  split at h
  · exact Except.noConfusion h
  · next hdr2 body2 heq =>
    split at h
    · exact Except.noConfusion h
    · next root rest heq2 =>
      rw [Except.ok.injEq, Prod.mk.injEq] at h
      obtain ⟨rfl, rfl⟩ := h
      exact ⟨body2, rest, heq, heq2⟩

theorem Xml_parse_root_elem {d hdr : List Char} {t : XNode}
    (h : Xml_parse d = .ok (hdr, some t)) : t.isElem = true := by
  obtain ⟨body, rest, hpp, hpt⟩ := Xml_parse_inv h
  unfold parseTop at hpt
  split at hpt
  · split at hpt
    · exact Except.noConfusion hpt
    · next n r heq =>
      rw [Except.ok.injEq, Prod.mk.injEq] at hpt
      obtain ⟨h1, _⟩ := hpt
      rw [Option.some_inj] at h1
      exact h1 ▸ parseElem_isElem _ _ _ _ heq
  · rw [Except.ok.injEq, Prod.mk.injEq] at hpt
    exact Option.noConfusion hpt.1

theorem header_prefix : ∀ (pre post : List Char),
    "<?xml".data.isPrefixOf (pre ++ '?' :: '>' :: post) = true →
    "<?xml".data.isPrefixOf (pre ++ ['?', '>']) = true := by
  intro pre post h
  match pre, h with
  | [], h => simp [List.isPrefixOf] at h
  | [a], h => simp [List.isPrefixOf] at h
  | [a, b], h => simp [List.isPrefixOf] at h
  | [a, b, c], h => simp [List.isPrefixOf] at h
  | [a, b, c, d], h => simp [List.isPrefixOf] at h
  | a :: b :: c :: d :: e :: rest, h =>
    simp only [List.cons_append, List.isPrefixOf, Bool.and_eq_true] at h ⊢
    refine ⟨h.1, h.2.1, h.2.2.1, h.2.2.2.1, h.2.2.2.2.1, ?_⟩
    simp [List.isPrefixOf]

theorem xmlPreprocess_header {s hdr body : List Char}
    (h : xmlPreprocess s = .ok (hdr, body)) :
    hdr = [] ∨ ("<?xml".data.isPrefixOf hdr = true ∧
      ∃ pre, hdr = pre ++ ['?', '>'] ∧ splitHeader pre = none) := by
  simp only [xmlPreprocess] at h
  generalize hs2 : (if (trimL s).head? = some '\uFEFF' then (trimL s).drop 1
    else trimL s) = s2 at h
  split at h
  · next hpre =>
    split at h
    · exact Except.noConfusion h
    · next pre post heq =>
      rw [Except.ok.injEq, Prod.mk.injEq] at h
      obtain ⟨rfl, rfl⟩ := h
      right
      constructor
      · have hsound := splitHeader_sound _ _ _ heq
        rw [hsound] at hpre
        exact header_prefix pre post hpre
      · exact ⟨pre, rfl, splitHeader_pre _ _ _ heq⟩
  · next hpre =>
    rw [Except.ok.injEq, Prod.mk.injEq] at h
    left
    exact h.1.symm


/-! Reparsing serialized documents: preprocessing recovers the header and the
serialized body, and the whole parse returns the original tree. -/

theorem isPrefixOf_cons_shape {p : Char} {ps l : List Char}
    (h : (p :: ps).isPrefixOf l = true) : ∃ l', l = p :: l' := by
  cases l with
  | nil => simp [List.isPrefixOf] at h
  | cons x xs =>
    simp only [List.isPrefixOf, Bool.and_eq_true, beq_iff_eq] at h
    exact ⟨xs, by rw [h.1]⟩

theorem noPrefix_open2 {nm : String}
    (hq : ¬ "?xml".data.isPrefixOf nm.data = true) (a : String) (R : List Char) :
    "<?xml".data.isPrefixOf (('<' :: nm.data) ++ (attrPart a ++ '>' :: R)) = false := by
  unfold attrPart
  by_cases h : a = ""
  · rw [if_pos h]
    rw [List.nil_append]
    exact noPrefix_open hq R
  · rw [if_neg h]
    cases hp : "<?xml".data.isPrefixOf (('<' :: nm.data) ++ (' ' :: a.data ++ '>' :: R)) with
    | false => rfl
    | true =>
      exfalso
      rw [List.cons_append] at hp
      have hp2 : "?xml".data.isPrefixOf (nm.data ++ ' ' :: (a.data ++ '>' :: R)) = true := by
        simpa [List.isPrefixOf] using hp
      rcases isPrefixOf_append_spill "?xml".data nm.data ' ' (a.data ++ '>' :: R) hp2
        with h3 | h3
      · exact hq h3
      · simp at h3

theorem trimL_lt_gt {l Z : List Char} (hhd : ∃ l', l = '<' :: l')
    (hlast : l = Z ++ ['>']) : trimL l = l := by
  obtain ⟨l', rfl⟩ := hhd
  rw [trimL_eq_rstripL (dropWhile_ws_cons_false (by decide))]
  rw [hlast]
  exact rstripL_concat_keep (by decide)

theorem xmlPreprocess_rebuild (hdr : List Char) (nm a : String) (cs : List XNode)
    (hhdr : hdr = [] ∨ ("<?xml".data.isPrefixOf hdr = true ∧
      ∃ pre, hdr = pre ++ ['?', '>'] ∧ splitHeader pre = none))
    (hq : hdr = [] → ¬ "?xml".data.isPrefixOf nm.data = true) :
    xmlPreprocess (hdr ++ buildL (.elem nm a cs)) =
      .ok (hdr, (buildL (.elem nm a cs)).dropLast) := by
  obtain ⟨W, hW⟩ := buildL_dropLast_head nm a cs
  have hWsh : ∃ R, W = attrPart a ++ '>' :: R := by
    refine ⟨sepOf cs ++ (buildChildren cs ++ '<' :: '/' :: (nm.data ++ ['>'])), ?_⟩
    have h1 := buildL_dropLast nm a cs
    rw [build_tag_eq] at h1
    rw [hW] at h1
    have h2 : ('<' :: nm.data) ++ W = ('<' :: nm.data) ++ (attrPart a ++
        '>' :: (sepOf cs ++ (buildChildren cs ++ '<' :: '/' :: (nm.data ++ ['>'])))) := by
      rw [h1]
      simp [List.append_assoc]
    exact List.append_cancel_left h2
  obtain ⟨R, hWR⟩ := hWsh
  have hbodyZ : ∃ Z, (buildL (.elem nm a cs)).dropLast = Z ++ ['>'] := by
    refine ⟨build_tag nm a ++ sepOf cs ++ buildChildren cs ++ ('<' :: '/' :: nm.data), ?_⟩
    rw [buildL_dropLast]
    simp [List.append_assoc]
  obtain ⟨Z, hZ⟩ := hbodyZ
  have hhead : ∃ l', hdr ++ (buildL (.elem nm a cs)).dropLast = '<' :: l' := by
    rcases hhdr with rfl | ⟨hpfx, _⟩
    · exact ⟨nm.data ++ W, by rw [List.nil_append, hW]; rfl⟩
    · obtain ⟨l', hl'⟩ := isPrefixOf_cons_shape hpfx
      exact ⟨l' ++ (buildL (.elem nm a cs)).dropLast, by rw [hl']; rfl⟩
  have hZ2 : hdr ++ (buildL (.elem nm a cs)).dropLast = (hdr ++ Z) ++ ['>'] := by
    rw [hZ, List.append_assoc]
  have htrim : trimL (hdr ++ buildL (.elem nm a cs)) =
      hdr ++ (buildL (.elem nm a cs)).dropLast := by
    have h1 : hdr ++ buildL (.elem nm a cs) =
        (hdr ++ (buildL (.elem nm a cs)).dropLast) ++ ['\n'] := by
      conv_lhs => rw [buildL_elem_split nm a cs]
      rw [List.append_assoc]
    rw [h1]
    obtain ⟨l', hl'⟩ := hhead
    rw [hl', List.cons_append,
      trimL_eq_rstripL (dropWhile_ws_cons_false (by decide)), ← List.cons_append, ← hl']
    rw [rstripL_append_ws (by decide)]
    rw [hZ2]
    exact rstripL_concat_keep (by decide)
  have htrimBody : trimL ((buildL (.elem nm a cs)).dropLast) =
      (buildL (.elem nm a cs)).dropLast := by
    refine trimL_lt_gt ⟨nm.data ++ W, ?_⟩ hZ
    rw [hW]
    rfl
  simp only [xmlPreprocess, htrim]
  obtain ⟨l', hl'⟩ := hhead
  rw [hl']
  rw [if_neg (show ¬(('<' :: l').head? = some '﻿') from by simp)]
  rw [← hl']
  rcases hhdr with rfl | ⟨hpfx, pre, hpre, hnone⟩
  · rw [List.nil_append]
    have hfp : "<?xml".data.isPrefixOf ((buildL (.elem nm a cs)).dropLast) = false := by
      rw [hW, hWR]
      exact noPrefix_open2 (hq rfl) a R
    have hfp2 : (['<', '?', 'x', 'm', 'l'] : List Char).isPrefixOf
        ((buildL (.elem nm a cs)).dropLast) = false := hfp
    rw [hfp2]
    simp only [Bool.false_eq_true, if_false]
    rw [htrimBody]
  · have htp : (['<', '?', 'x', 'm', 'l'] : List Char).isPrefixOf
        (hdr ++ (buildL (.elem nm a cs)).dropLast) = true :=
      isPrefixOf_append_right hpfx _
    rw [htp]
    simp only [if_true]
    have hsh : hdr ++ (buildL (.elem nm a cs)).dropLast =
        pre ++ '?' :: '>' :: ((buildL (.elem nm a cs)).dropLast) := by
      rw [hpre]
      simp [List.append_assoc]
    rw [hsh, splitHeader_append pre hnone _]
    split
    · next heq => exact Option.noConfusion heq
    · next pre2 post2 heq =>
      rw [Option.some_inj, Prod.mk.injEq] at heq
      obtain ⟨rfl, rfl⟩ := heq
      rw [htrimBody, hpre]

theorem Xml_parse_rebuild (hdr : List Char) (t : XNode) (hc : canonicalB t = true)
    (he : t.isElem = true)
    (hhdr : hdr = [] ∨ ("<?xml".data.isPrefixOf hdr = true ∧
      ∃ pre, hdr = pre ++ ['?', '>'] ∧ splitHeader pre = none))
    (hq : hdr = [] → ¬ "?xml".data.isPrefixOf t.nameOf.data = true) :
    Xml_parse (hdr ++ buildL t) = .ok (hdr, some t) := by
  cases t with
  | text s => exact absurd he (by simp [XNode.isElem])
  | elem nm a cs =>
    have hprep := xmlPreprocess_rebuild hdr nm a cs hhdr hq
    unfold Xml_parse
    split
    · next e heq => rw [hprep] at heq; exact Except.noConfusion heq
    · next hdr2 body2 heq =>
      rw [hprep, Except.ok.injEq, Prod.mk.injEq] at heq
      obtain ⟨rfl, rfl⟩ := heq
      obtain ⟨W, hW⟩ := buildL_dropLast_head nm a cs
      rw [hW, List.cons_append, parseTop_lt]
      have hcost := parseCost_le (.elem nm a cs) hc rfl
      have hlen : (buildL (.elem nm a cs)).length =
          ('<' :: (nm.data ++ W)).length + 1 := by
        conv_lhs => rw [buildL_elem_split nm a cs]
        rw [hW]
        simp
        omega
      have hfe := parseElem_build (.elem nm a cs) hc rfl []
        (('<' :: (nm.data ++ W)).length + 1) (by omega)
      rw [List.append_nil, hW, List.cons_append] at hfe
      rw [hfe]

/-- C4: serializer/parser round trip.  For every well-formed document the
parse succeeds with a header and a root tree; `Xml(d).build()` re-emits the
header followed by the serialized root; that output re-parses to exactly the
same header and tree (hence the same tag names, attribute text and
non-whitespace text content); and serialize-parse-serialize is idempotent:
`parse_build (parse_build d) = parse_build d`. -/
theorem claim_C4 (d : List Char) (h : WellFormedDoc d) :
    ∃ hdr t, Xml_parse d = .ok (hdr, some t)
      ∧ parse_build d = some (hdr ++ buildL t)
      ∧ Xml_parse (hdr ++ buildL t) = .ok (hdr, some t)
      ∧ (parse_build d).bind parse_build = parse_build d := by
  obtain ⟨hdr, t, hp, hc, hq⟩ := h
  have he := Xml_parse_root_elem hp
  obtain ⟨body, rest, hpp, hpt⟩ := Xml_parse_inv hp
  have hhdr := xmlPreprocess_header hpp
  have hrb := Xml_parse_rebuild hdr t hc he hhdr hq
  have hpb : parse_build d = some (hdr ++ buildL t) := by
    unfold parse_build
    rw [hp]
  have hpb2 : parse_build (hdr ++ buildL t) = some (hdr ++ buildL t) := by
    unfold parse_build
    rw [hrb]
  refine ⟨hdr, t, hp, hpb, hrb, ?_⟩
  rw [hpb]
  simpa [Option.bind_eq_bind, Option.some_bind] using hpb2

/-- Witness for C4 at a concrete two-level document. -/
theorem claim_C4_witness :
    ∃ hdr t, Xml_parse "<a><b>hi</b></a>".data = .ok (hdr, some t)
      ∧ parse_build "<a><b>hi</b></a>".data = some (hdr ++ buildL t)
      ∧ Xml_parse (hdr ++ buildL t) = .ok (hdr, some t)
      ∧ (parse_build "<a><b>hi</b></a>".data).bind parse_build =
          parse_build "<a><b>hi</b></a>".data :=
  claim_C4 "<a><b>hi</b></a>".data
    ⟨[], XNode.elem "a" "" [XNode.elem "b" "" [XNode.text "hi"]], by rfl, by decide,
      fun _ => by decide⟩

end GmlFilter
